import Mathlib

set_option maxRecDepth 4000

/-!
A shallow embedding of the game engine of App.jsx (the "Bài Tấn" card game,
8-card variant).  The engine state and each engine function (newGame,
playAttack, playDefend, addAttack, defenderTakes, drawToFill, checkForFinish,
canBeat, findFirstAttacker, rankValue, makeDeck) are translated one-to-one
from the source.  Conventions used throughout:

* The source draws with `deck.pop()` (the end of the JS array) and reinserts
  the trump card with `deck.unshift(...)` (the front of the JS array).  The
  embedding stores the deck in draw order: the head of the Lean list is the
  next card `pop` would yield, and `unshift c` becomes appending `[c]` at the
  end.  Every deck below is the reverse of the corresponding JS array.
* `shuffle` uses `Math.random`; it is modelled by quantifying over an
  arbitrary permutation of the freshly built deck, passed to `newGame` as
  the already-shuffled list.
* The UI parts of App.jsx (rendering, logs, alert, clipboard) are out of
  scope; an `alert`ed rejection leaves the state unchanged, so rejected
  actions are modelled as the identity on the state.
* `GameState.discards` is a ghost field with no counterpart in the source:
  when the source discards a fully defended table (`s.table = []` at round
  resolution) the cards silently leave the state.  The ghost field collects
  exactly those cards so that deck conservation can be stated.  No engine
  function ever reads it.
-/

/-- The four suit strings of the source (`SUITS`). -/
def SUITS : List String := ["♣", "♦", "♥", "♠"]

/-- The nine rank strings of the source (`RANKS`), low to high. -/
def RANKS : List String := ["6", "7", "8", "9", "10", "J", "Q", "K", "A"]

/-- A card: `{suit, rank}`.  The source also stores `id = rank ++ suit`,
a value derived from the two fields; it is recomputed by `cardId`. -/
structure Card where
  suit : String
  rank : String
deriving DecidableEq, Repr

/-- The derived `id` field of a source card (template literal `rank suit`). -/
def cardId (c : Card) : String := c.rank ++ c.suit

/-- `makeDeck()`: all 36 suit/rank combinations, suits outermost. -/
def makeDeck : List Card :=
  SUITS.flatMap (fun s => RANKS.map (fun r => { suit := s, rank := r }))

/-- `rankValue(rank) = RANKS.indexOf(rank)`; -1 when the rank is unknown,
exactly as JS `indexOf`. -/
def rankValue (rank : String) : Int :=
  match RANKS.findIdx? (fun r => r = rank) with
  | some i => (i : Int)
  | none => -1

/-- `canBeat(attackCard, defendCard, trump)`.  The `!defendCard` guard of the
source corresponds to the `none` case. -/
def canBeat (attackCard : Card) (defendCard : Option Card) (trump : String) : Bool :=
  match defendCard with
  | none => false
  | some d =>
    if attackCard.suit = d.suit then rankValue d.rank > rankValue attackCard.rank
    else d.suit = trump

/-- C2: the beat check accepts `d` against `a` iff they share a suit and `d`
has the larger rank, or `d` is a trump while `a` is not.  In particular a
trump attack (same-suit case) is only beaten by a higher trump. -/
theorem canBeat_iff (a d : Card) (t : String) :
    canBeat a (some d) t = true ↔
      (a.suit = d.suit ∧ rankValue a.rank < rankValue d.rank) ∨
      (d.suit = t ∧ a.suit ≠ t) := by
  simp only [canBeat]
  by_cases hs : a.suit = d.suit
  · simp [hs, gt_iff_lt]
  · simp only [if_neg hs, decide_eq_true_eq]
    constructor
    · intro h
      exact Or.inr ⟨h, fun ha => hs (ha.trans h.symm)⟩
    · rintro (⟨h, -⟩ | ⟨h, -⟩)
      · exact absurd h hs
      · exact h

/-- A player: `{id, name, hand}`. -/
structure Player where
  id : Nat
  name : String
  hand : List Card
deriving DecidableEq, Repr

instance : Inhabited Player := ⟨⟨0, "", []⟩⟩

/-- One table entry `{attack: card, defend: card|null, by: playerIndex}`. -/
structure TPair where
  attack : Card
  defend : Option Card
  by_ : Nat
deriving DecidableEq, Repr

/-- The game snapshot built by `newGame` (field `trump` holds the trump suit).
`discards` is the ghost field described in the header: the cards dropped at
round resolutions, which the source lets vanish from its state. -/
structure GameState where
  players : List Player
  deck : List Card
  trump : String
  table : List TPair
  attacker : Nat
  defender : Nat
  phase : String
  maxAdds : Int
  discards : List Card
deriving DecidableEq, Repr

/-- The head of `hand.filter(c => c.suit === trump).sort(byRankValue)`:
the first card of minimal `rankValue` among the trump cards of a hand
(JS `Array.sort` is stable, so ties keep the earlier card). -/
def minTrump (trump : String) : List Card → Option Card
  | [] => none
  | c :: cs =>
    if c.suit = trump then
      match minTrump trump cs with
      | none => some c
      | some m => if rankValue m.rank < rankValue c.rank then some m else some c
    else minTrump trump cs

/-- The `players.forEach` accumulator loop of `findFirstAttacker`: `best` is
replaced by a later candidate only when its rank is strictly smaller. -/
def bestLoop (trump : String) (acc : Option (Nat × Card)) :
    List (Nat × Player) → Option (Nat × Card)
  | [] => acc
  | (pi, p) :: rest =>
    let acc' :=
      match minTrump trump p.hand with
      | none => acc
      | some c =>
        match acc with
        | none => some (pi, c)
        | some (qj, b) =>
          if rankValue c.rank < rankValue b.rank then some (pi, c) else some (qj, b)
    bestLoop trump acc' rest

/-- `findFirstAttacker(players, trump)`: the index holding the smallest trump,
or 0 when nobody holds a trump. -/
def findFirstAttacker (players : List Player) (trump : String) : Nat :=
  match bestLoop trump none players.enum with
  | some (pi, _) => pi
  | none => 0

/-- Models `hand.findIndex(c => c.id === card.id)` followed by `splice(idx, 1)`:
the first card whose id matches, together with the hand without it; `none`
when `findIndex` yields -1 (in which case the source leaves the hand alone). -/
def removeFirstById (cid : String) : List Card → Option (Card × List Card)
  | [] => none
  | c :: cs =>
    if cardId c = cid then some (c, cs)
    else (removeFirstById cid cs).map (fun er => (er.1, c :: er.2))

/-- The cards of one table pair, attack card first, as the source enumerates
them (`t.defend ? [t.attack, t.defend] : [t.attack]`). -/
def pairCards (t : TPair) : List Card :=
  t.attack :: (match t.defend with | some d => [d] | none => [])

/-- The inner `while (p.hand.length < 8 && s.deck.length > 0) p.hand.push(s.deck.pop())`
of `drawToFill`; the deck list is in draw order (see header). -/
def fillHand : List Card → List Card → List Card × List Card
  | hand, [] => (hand, [])
  | hand, c :: rest =>
    if hand.length < 8 then fillHand (hand ++ [c]) rest else (hand, c :: rest)

/-- The `for (offset ...)` loop of `drawToFill`: visit `(attacker + offset) % n`
for each offset in turn and let that player draw up to 8. -/
def drawLoop (a : Nat) : List Nat → List Player → List Card → List Player × List Card
  | [], ps, dk => (ps, dk)
  | o :: os, ps, dk =>
    let pIndex := (a + o) % ps.length
    let p := ps.getD pIndex default
    let hd := fillHand p.hand dk
    drawLoop a os (ps.set pIndex { p with hand := hd.1 }) hd.2

/-- `drawToFill(state)`: after a round, players draw up to 8, attacker first
then the others clockwise. -/
def drawToFill (s : GameState) : GameState :=
  let r := drawLoop s.attacker (List.range s.players.length) s.players s.deck
  { s with players := r.1, deck := r.2 }

/-- `checkForFinish(s)`: if anyone has 0 cards while the deck is empty, the
phase becomes "finished". -/
def checkForFinish (s : GameState) : GameState :=
  if 0 < (s.players.filter (fun p => p.hand.length == 0 && s.deck.length == 0)).length
  then { s with phase := "finished" } else s

/-- One step of the deal loop of `newGame`: `players[p].hand.push(deck.pop())`.
With a 36-card deck the empty-deck case is unreachable (the source would push
`undefined` there); it is modelled as skipping the push. -/
def dealStep (p : Nat) : List Player × List Card → List Player × List Card
  | (ps, []) => (ps, [])
  | (ps, c :: dk) =>
    let pl := ps.getD p default
    (ps.set p { pl with hand := pl.hand ++ [c] }, dk)

/-- The nested `for (i of 8) for (p of numPlayers)` deal loop, flattened into
the sequence of receiving player indices. -/
def dealSeq : List Nat → List Player × List Card → List Player × List Card
  | [], st => st
  | p :: order, st => dealSeq order (dealStep p st)

/-- The deal order of `newGame`: one round-robin pass of 8 over all players. -/
def dealOrder (n : Nat) : List Nat :=
  (List.range 8).flatMap (fun _ => List.range n)

/-- The fresh players of `newGame` (`Array.from({length: numPlayers}, ...)`). -/
def initPlayers (n : Nat) : List Player :=
  (List.range n).map (fun i => { id := i, name := "Player " ++ toString (i + 1), hand := [] })

/-- The trump card `newGame` turns up: the first card left after the deal. -/
def newGameTrumpCard (shuffled : List Card) (n : Nat) : Option Card :=
  (dealSeq (dealOrder n) (initPlayers n, shuffled)).2.head?

/-- `newGame()` for an already-shuffled deck (see header: `shuffle` is modelled
by the caller choosing the permutation).  Deal 8 to each player, turn up the
trump card, put it back at the far (undrawable-for-longest) end of the deck
(`deck.unshift`), and pick the first attacker.  The empty-deck fallback is
unreachable for a real 36-card shuffle with 2-4 players (the source would
crash reading `.suit` of `undefined`). -/
def newGame (shuffled : List Card) (n : Nat) : GameState :=
  let dealt := dealSeq (dealOrder n) (initPlayers n, shuffled)
  match dealt.2 with
  | [] =>
    { players := dealt.1, deck := [], trump := "", table := [], attacker := 0,
      defender := 0, phase := "attack", maxAdds := 0, discards := [] }
  | trumpCard :: rest =>
    let trump := trumpCard.suit
    let deck1 := rest ++ [trumpCard]
    let first := findFirstAttacker dealt.1 trump
    { players := dealt.1, deck := deck1, trump := trump, table := [],
      attacker := first, defender := (first + 1) % n, phase := "attack",
      maxAdds := 0, discards := [] }

/-- `playAttack(playerIndex, card)`.  Note that the source checks the actor
and card ownership but, despite its own "enforce attack phase" comment,
never checks the phase. -/
def playAttack (playerIndex : Nat) (card : Card) (s : GameState) : GameState :=
  if s.attacker ≠ playerIndex then s
  else
    match removeFirstById (cardId card) ((s.players.getD playerIndex default).hand) with
    | none => s
    | some er =>
      let players' := s.players.set playerIndex
        { s.players.getD playerIndex default with hand := er.2 }
      let table' := s.table ++ [{ attack := card, defend := none, by_ := playerIndex }]
      { s with
        players := players', table := table', phase := "defend",
        maxAdds := min ((players'.getD s.defender default).hand.length : Int)
          (8 - (table'.length : Int)) }

/-- `playDefend(playerIndex, attackIndex, card)`.  Rejections (wrong actor,
bad pair index, already-defended pair, unowned card, beat-rule failure) leave
the state unchanged.  On full defense the table is discarded (tracked in the
ghost `discards`), roles rotate, players draw, and the finish check runs. -/
def playDefend (playerIndex attackIndex : Nat) (card : Card) (s : GameState) : GameState :=
  if s.defender ≠ playerIndex then s
  else
    match s.table.get? attackIndex with
    | none => s
    | some attPair =>
      if attPair.defend ≠ none then s
      else
        match removeFirstById (cardId card) ((s.players.getD playerIndex default).hand) with
        | none => s
        | some er =>
          if ¬ canBeat attPair.attack (some card) s.trump then s
          else
            let players' := s.players.set playerIndex
              { s.players.getD playerIndex default with hand := er.2 }
            let table' := s.table.set attackIndex { attPair with defend := some card }
            if table'.all (fun t => t.defend ≠ none) then
              let s2 : GameState :=
                { s with
                  players := players', table := [],
                  discards := s.discards ++ table'.flatMap pairCards,
                  attacker := s.defender,
                  defender := (s.defender + 1) % s.players.length,
                  phase := "cleanup" }
              checkForFinish { drawToFill s2 with phase := "attack" }
            else { s with players := players', table := table' }

/-- `addAttack(byPlayerIndex, card)`: during "defend", any player holding a
card whose rank is on the table may add it while the table is below 8 pairs.
The source's defender-hand-size guard has an empty body ("rough guard: keep
it simple") and therefore has no effect; nothing restricts the actor. -/
def addAttack (byPlayerIndex : Nat) (card : Card) (s : GameState) : GameState :=
  if s.phase ≠ "defend" then s
  else
    match removeFirstById (cardId card) ((s.players.getD byPlayerIndex default).hand) with
    | none => s
    | some er =>
      let ranksOnTable := (s.table.flatMap
        (fun t => t.attack.rank :: (match t.defend with | some d => [d.rank] | none => []))).filter
        (fun r => r ≠ "")
      if ¬ (card.rank ∈ ranksOnTable) then s
      else if 8 ≤ s.table.length then s
      else
        { s with
          players := s.players.set byPlayerIndex
            { s.players.getD byPlayerIndex default with hand := er.2 },
          table := s.table ++ [{ attack := card, defend := none, by_ := byPlayerIndex }] }

/-- `defenderTakes()`: the defender collects every card on the table, the
attacker keeps the role, the next player defends, everyone draws, and the
finish check runs.  The source guards neither the actor nor the phase. -/
def defenderTakes (s : GameState) : GameState :=
  let toTake := s.table.flatMap pairCards
  let p := s.players.getD s.defender default
  let players' := s.players.set s.defender { p with hand := p.hand ++ toTake }
  let s1 := { s with
              players := players', table := [],
              defender := (s.attacker + 1) % s.players.length }
  checkForFinish { drawToFill s1 with phase := "attack" }

/-! ### Card accounting

Multiset bookkeeping used to state and prove deck conservation. -/

/-- Sum of a multiset-valued function over a list. -/
def sumBy {α : Type} (f : α → Multiset Card) : List α → Multiset Card
  | [] => 0
  | a :: as => f a + sumBy f as

theorem sumBy_append {α : Type} (f : α → Multiset Card) (l m : List α) :
    sumBy f (l ++ m) = sumBy f l + sumBy f m := by
  induction l with
  | nil => simp [sumBy]
  | cons a as ih => simp [sumBy, ih, add_assoc]

theorem sumBy_set {α : Type} [Inhabited α] (f : α → Multiset Card) :
    ∀ (l : List α) (i : Nat), i < l.length → ∀ (q : α),
      sumBy f (l.set i q) + f (l.getD i default) = sumBy f l + f q := by
  intro l
  induction l with
  | nil => intro i hi; simp at hi
  | cons a as ih =>
    intro i hi q
    cases i with
    | zero =>
      simp only [List.set, List.getD, sumBy]
      simp [add_comm, add_left_comm]
    | succ i =>
      simp only [List.set, sumBy, List.getD_cons_succ]
      have := ih i (by simpa using hi) q
      calc f a + sumBy f (as.set i q) + f (as.getD i default)
          = f a + (sumBy f (as.set i q) + f (as.getD i default)) := by rw [add_assoc]
        _ = f a + (sumBy f as + f q) := by rw [this]
        _ = f a + sumBy f as + f q := by rw [add_assoc]

theorem mem_sumBy {α : Type} {f : α → Multiset Card} {x : α} :
    ∀ {l : List α}, x ∈ l → ∀ {a : Card}, a ∈ f x → a ∈ sumBy f l := by
  intro l
  induction l with
  | nil => intro h; simp at h
  | cons b bs ih =>
    intro hx a ha
    rcases List.mem_cons.mp hx with h | h
    · subst h; exact Multiset.mem_add.mpr (Or.inl ha)
    · exact Multiset.mem_add.mpr (Or.inr (ih h ha))

/-- All cards in some player's hand. -/
def handsCards (ps : List Player) : Multiset Card :=
  sumBy (fun p => (p.hand : Multiset Card)) ps

/-- All cards on the table (attack and defend cards of every pair). -/
def tableCards (tb : List TPair) : Multiset Card :=
  sumBy (fun t => (pairCards t : Multiset Card)) tb

/-- Every card accounted for by a snapshot: deck, hands, table and the
discards of earlier resolved rounds. -/
def cardsOf (s : GameState) : Multiset Card :=
  (s.deck : Multiset Card) + handsCards s.players + tableCards s.table
    + (s.discards : Multiset Card)

theorem tableCards_coe_flatMap (tb : List TPair) :
    ((tb.flatMap pairCards : List Card) : Multiset Card) = tableCards tb := by
  induction tb with
  | nil => simp [tableCards, sumBy]
  | cons t ts ih =>
    simp only [List.flatMap_cons, tableCards, sumBy] at *
    rw [← Multiset.coe_add, ih]

theorem removeFirstById_some {cid : String} :
    ∀ {l : List Card} {e : Card} {rest : List Card},
      removeFirstById cid l = some (e, rest) →
      cardId e = cid ∧ e ∈ l ∧ (l : Multiset Card) = e ::ₘ (rest : Multiset Card) := by
  intro l
  induction l with
  | nil => intro e rest h; simp [removeFirstById] at h
  | cons c cs ih =>
    intro e rest h
    simp only [removeFirstById] at h
    by_cases hc : cardId c = cid
    · rw [if_pos hc] at h
      simp only [Option.some.injEq, Prod.mk.injEq] at h
      obtain ⟨rfl, rfl⟩ := h
      exact ⟨hc, List.mem_cons_self _ _, (Multiset.cons_coe _ _).symm⟩
    · rw [if_neg hc] at h
      cases hr : removeFirstById cid cs with
      | none => rw [hr] at h; simp at h
      | some er =>
        rw [hr] at h
        simp only [Option.map, Option.some.injEq, Prod.mk.injEq] at h
        obtain ⟨he, hrest⟩ := h
        obtain ⟨h1, h2, h3⟩ := @ih er.1 er.2 (by rw [hr])
        subst he
        refine ⟨h1, List.mem_cons_of_mem _ h2, ?_⟩
        rw [← hrest, ← Multiset.cons_coe c er.2, ← Multiset.cons_swap, ← h3,
          Multiset.cons_coe]

theorem removeFirstById_mem {l : List Card} {c : Card} (hc : c ∈ l) :
    ∃ er, removeFirstById (cardId c) l = some er := by
  induction l with
  | nil => simp at hc
  | cons a as ih =>
    by_cases ha : cardId a = cardId c
    · exact ⟨(a, as), by simp [removeFirstById, ha]⟩
    · have hmem : c ∈ as := by
        rcases List.mem_cons.mp hc with h | h
        · exact absurd (by rw [h]) ha
        · exact h
      obtain ⟨er, her⟩ := ih hmem
      exact ⟨(er.1, a :: er.2), by simp [removeFirstById, ha, her]⟩

/-! ### List indexing helpers -/

theorem getD_set_ne {α : Type} [Inhabited α] (l : List α) {i j : Nat} (hij : i ≠ j)
    (a : α) : (l.set j a).getD i default = l.getD i default := by
  rw [List.getD_eq_getElem?_getD, List.getElem?_set_ne (Ne.symm hij),
    ← List.getD_eq_getElem?_getD]

theorem getD_set_self {α : Type} [Inhabited α] (l : List α) {j : Nat} (hj : j < l.length)
    (a : α) : (l.set j a).getD j default = a := by
  rw [List.getD_eq_getElem?_getD, List.getElem?_set_self hj]
  rfl

theorem getD_default_of_ge {α : Type} [Inhabited α] (l : List α) {i : Nat}
    (hi : l.length ≤ i) : l.getD i default = default := by
  rw [List.getD_eq_getElem?_getD, List.getElem?_eq_none hi]
  rfl

/-! ### Properties of the refill loop -/

theorem fillHand_conserve : ∀ (d h : List Card),
    ((fillHand h d).1 : Multiset Card) + ((fillHand h d).2 : Multiset Card)
      = (h : Multiset Card) + (d : Multiset Card) := by
  intro d
  induction d with
  | nil => intro h; simp [fillHand]
  | cons c rest ih =>
    intro h
    simp only [fillHand]
    by_cases hl : h.length < 8
    · rw [if_pos hl, ih (h ++ [c])]
      simp [Multiset.coe_add, List.append_assoc]
    · rw [if_neg hl]

theorem fillHand_stop : ∀ (d h : List Card),
    8 ≤ (fillHand h d).1.length ∨ (fillHand h d).2 = [] := by
  intro d
  induction d with
  | nil => intro h; exact Or.inr rfl
  | cons c rest ih =>
    intro h
    simp only [fillHand]
    by_cases hl : h.length < 8
    · rw [if_pos hl]; exact ih (h ++ [c])
    · rw [if_neg hl]; exact Or.inl (Nat.le_of_not_lt hl)

theorem fillHand_len_le : ∀ (d h : List Card),
    (fillHand h d).1.length ≤ max h.length 8 := by
  intro d
  induction d with
  | nil => intro h; exact le_max_left _ _
  | cons c rest ih =>
    intro h
    simp only [fillHand]
    by_cases hl : h.length < 8
    · rw [if_pos hl]
      have := ih (h ++ [c])
      simp only [List.length_append, List.length_singleton] at this
      omega
    · rw [if_neg hl]; exact le_max_left _ _

theorem fillHand_len_ge : ∀ (d h : List Card),
    h.length ≤ (fillHand h d).1.length := by
  intro d
  induction d with
  | nil => intro h; exact le_refl _
  | cons c rest ih =>
    intro h
    simp only [fillHand]
    by_cases hl : h.length < 8
    · rw [if_pos hl]
      have := ih (h ++ [c])
      simp only [List.length_append, List.length_singleton] at this
      omega
    · rw [if_neg hl]

theorem drawLoop_length : ∀ (os : List Nat) (a : Nat) (ps : List Player) (dk : List Card),
    (drawLoop a os ps dk).1.length = ps.length := by
  intro os
  induction os with
  | nil => intro a ps dk; rfl
  | cons o os ih =>
    intro a ps dk
    simp only [drawLoop]
    rw [ih, List.length_set]

theorem drawLoop_deck_nil : ∀ (os : List Nat) (a : Nat) (ps : List Player),
    (drawLoop a os ps []).2 = [] := by
  intro os
  induction os with
  | nil => intro a ps; rfl
  | cons o os ih => intro a ps; simp only [drawLoop, fillHand]; exact ih a _

theorem drawLoop_conserve : ∀ (os : List Nat) (a : Nat) (ps : List Player)
    (dk : List Card), 0 < ps.length →
    handsCards (drawLoop a os ps dk).1 + ((drawLoop a os ps dk).2 : Multiset Card)
      = handsCards ps + (dk : Multiset Card) := by
  intro os
  induction os with
  | nil => intro a ps dk _; rfl
  | cons o os ih =>
    intro a ps dk hpos
    simp only [drawLoop]
    set pIndex := (a + o) % ps.length with hpi
    have hlt : pIndex < ps.length := Nat.mod_lt _ hpos
    set p := ps.getD pIndex default with hp
    set h1 := (fillHand p.hand dk).1 with hh1
    set dk' := (fillHand p.hand dk).2 with hdk'
    set ps' := ps.set pIndex { p with hand := h1 } with hps'
    have hlen' : 0 < ps'.length := by rw [hps', List.length_set]; exact hpos
    rw [ih a ps' dk' hlen']
    have h₁ : handsCards ps' + (p.hand : Multiset Card)
        = handsCards ps + (h1 : Multiset Card) :=
      sumBy_set (fun q => (q.hand : Multiset Card)) ps pIndex hlt { p with hand := h1 }
    have h₂ : (h1 : Multiset Card) + (dk' : Multiset Card)
        = (p.hand : Multiset Card) + (dk : Multiset Card) := fillHand_conserve dk p.hand
    have key : handsCards ps' + (dk' : Multiset Card) + (p.hand : Multiset Card)
        = handsCards ps + (dk : Multiset Card) + (p.hand : Multiset Card) := by
      calc handsCards ps' + (dk' : Multiset Card) + (p.hand : Multiset Card)
          = handsCards ps' + (p.hand : Multiset Card) + (dk' : Multiset Card) := by
            rw [add_right_comm]
        _ = handsCards ps + (h1 : Multiset Card) + (dk' : Multiset Card) := by rw [h₁]
        _ = handsCards ps + ((h1 : Multiset Card) + (dk' : Multiset Card)) := by
            rw [add_assoc]
        _ = handsCards ps + ((p.hand : Multiset Card) + (dk : Multiset Card)) := by
            rw [h₂]
        _ = handsCards ps + (dk : Multiset Card) + (p.hand : Multiset Card) := by
            rw [← add_assoc, add_right_comm]
    exact add_right_cancel key

theorem drawLoop_hand_le : ∀ (os : List Nat) (a : Nat) (ps : List Player)
    (dk : List Card) (i : Nat), i < ps.length →
    (((drawLoop a os ps dk).1.getD i default).hand.length)
      ≤ max ((ps.getD i default).hand.length) 8 := by
  intro os
  induction os with
  | nil => intro a ps dk i _; exact le_max_left _ _
  | cons o os ih =>
    intro a ps dk i hi
    simp only [drawLoop]
    have hpos : 0 < ps.length := Nat.lt_of_le_of_lt (Nat.zero_le _) hi
    set pIndex := (a + o) % ps.length with hpi
    have hlt : pIndex < ps.length := Nat.mod_lt _ hpos
    set p := ps.getD pIndex default with hp
    set h1 := (fillHand p.hand dk).1 with hh1
    set ps' := ps.set pIndex { p with hand := h1 } with hps'
    have hi' : i < ps'.length := by rw [hps', List.length_set]; exact hi
    have step := ih a ps' (fillHand p.hand dk).2 i hi'
    by_cases hipi : i = pIndex
    · have hset : ps'.getD i default = { p with hand := h1 } := by
        rw [hps', hipi]
        exact getD_set_self ps hlt _
      rw [hset] at step
      have hstep : ((drawLoop a os ps' (fillHand p.hand dk).2).1.getD i
          default).hand.length ≤ max h1.length 8 := step
      have hle : h1.length ≤ max p.hand.length 8 := fillHand_len_le dk p.hand
      have hgoal : ps.getD i default = p := by rw [hipi]
      rw [hgoal]
      omega
    · rw [getD_set_ne ps hipi] at step
      exact step

theorem drawLoop_hand_ge : ∀ (os : List Nat) (a : Nat) (ps : List Player)
    (dk : List Card) (i : Nat), i < ps.length →
    ((ps.getD i default).hand.length)
      ≤ ((drawLoop a os ps dk).1.getD i default).hand.length := by
  intro os
  induction os with
  | nil => intro a ps dk i _; exact le_refl _
  | cons o os ih =>
    intro a ps dk i hi
    simp only [drawLoop]
    have hpos : 0 < ps.length := Nat.lt_of_le_of_lt (Nat.zero_le _) hi
    set pIndex := (a + o) % ps.length with hpi
    have hlt : pIndex < ps.length := Nat.mod_lt _ hpos
    set p := ps.getD pIndex default with hp
    set h1 := (fillHand p.hand dk).1 with hh1
    set ps' := ps.set pIndex { p with hand := h1 } with hps'
    have hi' : i < ps'.length := by rw [hps', List.length_set]; exact hi
    have step := ih a ps' (fillHand p.hand dk).2 i hi'
    by_cases hipi : i = pIndex
    · have hset : ps'.getD i default = { p with hand := h1 } := by
        rw [hps', hipi]
        exact getD_set_self ps hlt _
      rw [hset] at step
      have hstep : h1.length ≤ ((drawLoop a os ps' (fillHand p.hand dk).2).1.getD i
          default).hand.length := step
      have hge : p.hand.length ≤ h1.length := fillHand_len_ge dk p.hand
      have hgoal : ps.getD i default = p := by rw [hipi]
      rw [hgoal]
      exact le_trans hge hstep
    · rw [getD_set_ne ps hipi] at step
      exact step

theorem drawLoop_visited : ∀ (os : List Nat) (a : Nat) (ps : List Player)
    (dk : List Card) (i : Nat), i < ps.length →
    (∃ o ∈ os, (a + o) % ps.length = i) →
    8 ≤ ((drawLoop a os ps dk).1.getD i default).hand.length ∨
      (drawLoop a os ps dk).2 = [] := by
  intro os
  induction os with
  | nil => intro a ps dk i _ hex; simp at hex
  | cons o os ih =>
    intro a ps dk i hi hex
    simp only [drawLoop]
    have hpos : 0 < ps.length := Nat.lt_of_le_of_lt (Nat.zero_le _) hi
    set pIndex := (a + o) % ps.length with hpi
    have hlt : pIndex < ps.length := Nat.mod_lt _ hpos
    set p := ps.getD pIndex default with hp
    set h1 := (fillHand p.hand dk).1 with hh1
    set dk' := (fillHand p.hand dk).2 with hdk'
    set ps' := ps.set pIndex { p with hand := h1 } with hps'
    have hi' : i < ps'.length := by rw [hps', List.length_set]; exact hi
    obtain ⟨o', ho', heq⟩ := hex
    rcases List.mem_cons.mp ho' with rfl | hmem
    · have hpii : pIndex = i := heq
      rcases fillHand_stop dk p.hand with h8 | hnil
      · left
        have step := drawLoop_hand_ge os a ps' dk' i hi'
        have hset : ps'.getD i default = { p with hand := h1 } := by
          rw [hps', ← hpii]
          exact getD_set_self ps hlt _
        rw [hset] at step
        exact le_trans h8 step
      · right
        rw [← hdk'] at hnil
        rw [hnil]
        exact drawLoop_deck_nil os a ps'
    · exact ih a ps' dk' i hi' ⟨o', hmem, by rw [hps', List.length_set]; exact heq⟩

/-! ### drawToFill and checkForFinish -/

theorem drawToFill_players_length (s : GameState) :
    (drawToFill s).players.length = s.players.length :=
  drawLoop_length _ _ _ _

theorem drawToFill_table (s : GameState) : (drawToFill s).table = s.table := rfl

theorem drawToFill_discards (s : GameState) : (drawToFill s).discards = s.discards := rfl

theorem drawToFill_attacker (s : GameState) : (drawToFill s).attacker = s.attacker := rfl

theorem drawToFill_defender (s : GameState) : (drawToFill s).defender = s.defender := rfl

theorem drawToFill_conserve (s : GameState) (h : 0 < s.players.length) :
    cardsOf (drawToFill s) = cardsOf s := by
  have key := drawLoop_conserve (List.range s.players.length) s.attacker
    s.players s.deck h
  simp only [cardsOf, drawToFill]
  have h2 : ((drawLoop s.attacker (List.range s.players.length) s.players s.deck).2 :
        Multiset Card)
      + handsCards (drawLoop s.attacker (List.range s.players.length) s.players s.deck).1
      = (s.deck : Multiset Card) + handsCards s.players := by
    rw [add_comm, key, add_comm]
  rw [h2]

theorem checkForFinish_players (s : GameState) :
    (checkForFinish s).players = s.players := by
  unfold checkForFinish; split <;> rfl

theorem checkForFinish_deck (s : GameState) : (checkForFinish s).deck = s.deck := by
  unfold checkForFinish; split <;> rfl

theorem checkForFinish_cardsOf (s : GameState) :
    cardsOf (checkForFinish s) = cardsOf s := by
  unfold checkForFinish; split <;> rfl

/-- Decoding the finish condition of the source: somebody passed the filter
iff the deck is empty and some hand is empty. -/
theorem finishCond_iff (s : GameState) :
    0 < (s.players.filter (fun p => p.hand.length == 0 && s.deck.length == 0)).length ↔
      s.deck = [] ∧ ∃ p ∈ s.players, p.hand = [] := by
  constructor
  · intro h
    obtain ⟨p, hp⟩ := List.exists_mem_of_length_pos h
    rw [List.mem_filter] at hp
    obtain ⟨hmem, hcond⟩ := hp
    simp only [Bool.and_eq_true, beq_iff_eq, List.length_eq_zero] at hcond
    exact ⟨hcond.2, p, hmem, hcond.1⟩
  · rintro ⟨hdeck, p, hmem, hhand⟩
    apply List.length_pos_of_mem (a := p)
    rw [List.mem_filter]
    refine ⟨hmem, ?_⟩
    simp [hhand, hdeck]

theorem checkForFinish_phase_iff (s : GameState) (h : s.phase ≠ "finished") :
    (checkForFinish s).phase = "finished" ↔
      (checkForFinish s).deck = [] ∧ ∃ p ∈ (checkForFinish s).players, p.hand = [] := by
  rw [checkForFinish_deck, checkForFinish_players, ← finishCond_iff]
  unfold checkForFinish
  by_cases hc :
      0 < (s.players.filter (fun p => p.hand.length == 0 && s.deck.length == 0)).length
  · rw [if_pos hc]
    exact ⟨fun _ => hc, fun _ => rfl⟩
  · rw [if_neg hc]
    exact ⟨fun hfin => absurd hfin h, fun hcond => absurd hcond hc⟩

/-! ### The deal and newGame -/

theorem dealSeq_players_length : ∀ (order : List Nat) (ps : List Player)
    (dk : List Card), (dealSeq order (ps, dk)).1.length = ps.length := by
  intro order
  induction order with
  | nil => intro ps dk; rfl
  | cons p order ih =>
    intro ps dk
    cases dk with
    | nil => simp only [dealSeq, dealStep]; exact ih ps []
    | cons c dk' =>
      simp only [dealSeq, dealStep]
      rw [ih, List.length_set]

theorem dealSeq_deck_len : ∀ (order : List Nat) (st : List Player × List Card),
    st.2.length ≤ (dealSeq order st).2.length + order.length := by
  intro order
  induction order with
  | nil => intro st; simp [dealSeq]
  | cons p order ih =>
    intro st
    simp only [dealSeq, List.length_cons]
    have h1 : st.2.length ≤ (dealStep p st).2.length + 1 := by
      rcases st with ⟨ps, dk⟩
      cases dk <;> simp [dealStep]
    have h2 := ih (dealStep p st)
    omega

theorem dealSeq_conserve : ∀ (order : List Nat) (ps : List Player) (dk : List Card),
    (∀ p ∈ order, p < ps.length) →
    handsCards (dealSeq order (ps, dk)).1 + ((dealSeq order (ps, dk)).2 : Multiset Card)
      = handsCards ps + (dk : Multiset Card) := by
  intro order
  induction order with
  | nil => intro ps dk _; rfl
  | cons p order ih =>
    intro ps dk hb
    have hp : p < ps.length := hb p (List.mem_cons_self _ _)
    cases dk with
    | nil =>
      simp only [dealSeq, dealStep]
      exact ih ps [] (fun q hq => hb q (List.mem_cons_of_mem _ hq))
    | cons c dk' =>
      simp only [dealSeq, dealStep]
      set pl := ps.getD p default with hpl
      set ps2 := ps.set p { pl with hand := pl.hand ++ [c] } with hps2
      have hb2 : ∀ q ∈ order, q < ps2.length := by
        intro q hq
        rw [hps2, List.length_set]
        exact hb q (List.mem_cons_of_mem _ hq)
      rw [ih ps2 dk' hb2]
      have h₁ : handsCards ps2 + (pl.hand : Multiset Card)
          = handsCards ps + ((pl.hand ++ [c] : List Card) : Multiset Card) :=
        sumBy_set (fun q => (q.hand : Multiset Card)) ps p hp { pl with hand := pl.hand ++ [c] }
      have key : handsCards ps2 + (dk' : Multiset Card) + (pl.hand : Multiset Card)
          = handsCards ps + ((c :: dk' : List Card) : Multiset Card)
            + (pl.hand : Multiset Card) := by
        calc handsCards ps2 + (dk' : Multiset Card) + (pl.hand : Multiset Card)
            = handsCards ps2 + (pl.hand : Multiset Card) + (dk' : Multiset Card) := by
              rw [add_right_comm]
          _ = handsCards ps + ((pl.hand ++ [c] : List Card) : Multiset Card)
                + (dk' : Multiset Card) := by rw [h₁]
          _ = handsCards ps + ((pl.hand : Multiset Card) + ({c} : Multiset Card))
                + (dk' : Multiset Card) := by rw [← Multiset.coe_add]; rfl
          _ = handsCards ps + ((c :: dk' : List Card) : Multiset Card)
                + (pl.hand : Multiset Card) := by
              rw [← Multiset.cons_coe, ← Multiset.singleton_add]
              abel
      exact add_right_cancel key

theorem handsCards_of_empty : ∀ (ps : List Player), (∀ p ∈ ps, p.hand = []) →
    handsCards ps = 0 := by
  intro ps
  induction ps with
  | nil => intro _; rfl
  | cons p ps ih =>
    intro h
    have hp : p.hand = [] := h p (List.mem_cons_self _ _)
    show (p.hand : Multiset Card) + handsCards ps = 0
    rw [hp, ih (fun q hq => h q (List.mem_cons_of_mem _ hq))]
    rfl

theorem initPlayers_length (n : Nat) : (initPlayers n).length = n := by
  simp [initPlayers]

theorem initPlayers_hands (n : Nat) : ∀ p ∈ initPlayers n, p.hand = [] := by
  intro p hp
  simp only [initPlayers, List.mem_map] at hp
  obtain ⟨i, -, rfl⟩ := hp
  rfl

theorem dealOrder_mem {n p : Nat} (hp : p ∈ dealOrder n) : p < n := by
  simp only [dealOrder, List.mem_flatMap] at hp
  obtain ⟨a, -, hp⟩ := hp
  exact List.mem_range.mp hp

theorem dealOrder_length (n : Nat) : (dealOrder n).length = 8 * n := by
  simp only [dealOrder, List.length_flatMap]
  have hfun : (List.length ∘ fun _ : Nat => List.range n) = fun _ => n :=
    funext fun _ => List.length_range n
  rw [hfun, List.map_const', List.sum_replicate, List.length_range, smul_eq_mul]

theorem bestLoop_acc (t : String) : ∀ (L : List (Nat × Player))
    (acc : Option (Nat × Card)) (pi : Nat) (c : Card),
    bestLoop t acc L = some (pi, c) →
    acc = some (pi, c) ∨ ∃ pr ∈ L, pr.1 = pi := by
  intro L
  induction L with
  | nil => intro acc pi c h; exact Or.inl h
  | cons hd L ih =>
    intro acc pi c h
    rcases hd with ⟨qj, q⟩
    simp only [bestLoop] at h
    cases hmt : minTrump t q.hand with
    | none =>
      simp only [hmt] at h
      rcases ih acc pi c h with hacc | ⟨pr, hpr, hpr1⟩
      · exact Or.inl hacc
      · exact Or.inr ⟨pr, List.mem_cons_of_mem _ hpr, hpr1⟩
    | some m =>
      simp only [hmt] at h
      cases acc with
      | none =>
        replace h : bestLoop t (some (qj, m)) L = some (pi, c) := h
        rcases ih (some (qj, m)) pi c h with hacc | ⟨pr, hpr, hpr1⟩
        · simp only [Option.some.injEq, Prod.mk.injEq] at hacc
          exact Or.inr ⟨(qj, q), List.mem_cons_self _ _, hacc.1⟩
        · exact Or.inr ⟨pr, List.mem_cons_of_mem _ hpr, hpr1⟩
      | some ab =>
        rcases ab with ⟨aj, b⟩
        replace h : bestLoop t
            (if rankValue m.rank < rankValue b.rank then some (qj, m) else some (aj, b))
            L = some (pi, c) := h
        by_cases hlt : rankValue m.rank < rankValue b.rank
        · rw [if_pos hlt] at h
          rcases ih (some (qj, m)) pi c h with hacc | ⟨pr, hpr, hpr1⟩
          · simp only [Option.some.injEq, Prod.mk.injEq] at hacc
            exact Or.inr ⟨(qj, q), List.mem_cons_self _ _, hacc.1⟩
          · exact Or.inr ⟨pr, List.mem_cons_of_mem _ hpr, hpr1⟩
        · rw [if_neg hlt] at h
          rcases ih (some (aj, b)) pi c h with hacc | ⟨pr, hpr, hpr1⟩
          · exact Or.inl hacc
          · exact Or.inr ⟨pr, List.mem_cons_of_mem _ hpr, hpr1⟩

theorem findFirstAttacker_lt (ps : List Player) (t : String) (h : 0 < ps.length) :
    findFirstAttacker ps t < ps.length := by
  unfold findFirstAttacker
  cases hb : bestLoop t none ps.enum with
  | none => exact h
  | some pr =>
    rcases pr with ⟨pi, c⟩
    rcases bestLoop_acc t ps.enum none pi c hb with hacc | ⟨pr, hpr, hpr1⟩
    · simp at hacc
    · rcases pr with ⟨j, q⟩
      rw [List.enum_eq_enumFrom] at hpr
      have hm := List.mem_enumFrom hpr
      have hj : j = pi := hpr1
      show pi < ps.length
      omega

theorem newGame_deal_deck_ne_nil (shuffled : List Card) (n : Nat)
    (hlen : 36 ≤ shuffled.length) (hn : n ≤ 4) :
    (dealSeq (dealOrder n) (initPlayers n, shuffled)).2 ≠ [] := by
  have hd := dealSeq_deck_len (dealOrder n) (initPlayers n, shuffled)
  rw [dealOrder_length] at hd
  intro hnil
  rw [hnil] at hd
  simp only [List.length_nil, Nat.zero_add] at hd
  omega

theorem newGame_conserve (shuffled : List Card) (n : Nat)
    (hlen : 36 ≤ shuffled.length) (hn : n ≤ 4) :
    cardsOf (newGame shuffled n) = (shuffled : Multiset Card) := by
  have hne := newGame_deal_deck_ne_nil shuffled n hlen hn
  have hcons := dealSeq_conserve (dealOrder n) (initPlayers n) shuffled
    (fun p hp => by rw [initPlayers_length]; exact dealOrder_mem hp)
  rw [handsCards_of_empty _ (initPlayers_hands n), zero_add] at hcons
  simp only [newGame]
  split
  · next heq => exact absurd heq hne
  · next tc rest heq =>
    rw [heq] at hcons
    simp only [cardsOf, tableCards, sumBy]
    show ((rest ++ [tc] : List Card) : Multiset Card)
        + handsCards (dealSeq (dealOrder n) (initPlayers n, shuffled)).1 + 0
        + (([] : List Card) : Multiset Card) = (shuffled : Multiset Card)
    rw [← hcons, ← Multiset.coe_add]
    have : ((tc :: rest : List Card) : Multiset Card)
        = ((rest ++ [tc] : List Card) : Multiset Card) := by
      rw [Multiset.coe_eq_coe]
      exact (List.perm_append_singleton tc rest).symm
    rw [this]
    have hz : (([] : List Card) : Multiset Card) = 0 := rfl
    rw [hz, ← Multiset.coe_add]
    abel

theorem newGame_players_length (shuffled : List Card) (n : Nat) :
    (newGame shuffled n).players.length = n := by
  simp only [newGame]
  split <;>
    simp only [dealSeq_players_length, initPlayers_length]

theorem newGame_attacker_lt (shuffled : List Card) (n : Nat) (hn : 0 < n) :
    (newGame shuffled n).attacker < n := by
  simp only [newGame]
  split
  · exact hn
  · next tc rest heq =>
    have hlen : (dealSeq (dealOrder n) (initPlayers n, shuffled)).1.length = n := by
      rw [dealSeq_players_length, initPlayers_length]
    have := findFirstAttacker_lt (dealSeq (dealOrder n) (initPlayers n, shuffled)).1
      tc.suit (by rw [hlen]; exact hn)
    rw [hlen] at this
    exact this

theorem newGame_defender_lt (shuffled : List Card) (n : Nat) (hn : 0 < n) :
    (newGame shuffled n).defender < n := by
  simp only [newGame]
  split
  · exact hn
  · exact Nat.mod_lt _ hn

/-- All 36 ids are distinct: two deck cards with equal id are equal. -/
theorem makeDeck_id_inj : ∀ c ∈ makeDeck, ∀ d ∈ makeDeck, cardId c = cardId d → c = d := by
  decide

/-- The built deck has no duplicate card. -/
theorem makeDeck_nodup : makeDeck.Nodup := by decide

theorem exists_offset (a i n : Nat) (hi : i < n) : ∃ o, o < n ∧ (a + o) % n = i := by
  have hn : 0 < n := Nat.lt_of_le_of_lt (Nat.zero_le _) hi
  have ha : a % n < n := Nat.mod_lt _ hn
  have hk : a % n + a / n * n = a := Nat.mod_add_div' a n
  by_cases hcase : i < a % n
  · refine ⟨n + i - a % n, by omega, ?_⟩
    have hsum : a + (n + i - a % n) = i + (a / n * n + n) := by omega
    rw [hsum, ← Nat.add_one_mul, Nat.add_mul_mod_self_right, Nat.mod_eq_of_lt hi]
  · refine ⟨i - a % n, by omega, ?_⟩
    have hsum : a + (i - a % n) = i + a / n * n := by omega
    rw [hsum, Nat.add_mul_mod_self_right, Nat.mod_eq_of_lt hi]

/-! ### Reachable states and the conservation invariant -/

/-- States reachable from `newGame` (any permutation of the fresh deck, 2-4
players, as offered by the UI) through engine actions.  Card arguments come
from the acting player's hand, exactly as the UI passes them (`CardButton`
receives an element of `p.hand`); indices are in range for the same reason.
Rejected actions are included (they leave the state unchanged). -/
inductive Reach : GameState → Prop
  | init (shuffled : List Card) (n : Nat) (hperm : shuffled.Perm makeDeck)
      (h2 : 2 ≤ n) (h4 : n ≤ 4) : Reach (newGame shuffled n)
  | attack (s : GameState) (p : Nat) (c : Card) (hs : Reach s)
      (hp : p < s.players.length) (hc : c ∈ (s.players.getD p default).hand) :
      Reach (playAttack p c s)
  | defend (s : GameState) (p i : Nat) (c : Card) (hs : Reach s)
      (hp : p < s.players.length) (hc : c ∈ (s.players.getD p default).hand) :
      Reach (playDefend p i c s)
  | add (s : GameState) (p : Nat) (c : Card) (hs : Reach s)
      (hp : p < s.players.length) (hc : c ∈ (s.players.getD p default).hand) :
      Reach (addAttack p c s)
  | take (s : GameState) (hs : Reach s) : Reach (defenderTakes s)

/-- The inductive invariant: conservation of the 36 cards plus wellformedness
of the player indices (needed so that the JS indexings are in range). -/
def EngineInv (s : GameState) : Prop :=
  cardsOf s = (makeDeck : Multiset Card) ∧ 0 < s.players.length ∧
    s.attacker < s.players.length ∧ s.defender < s.players.length

theorem mem_cardsOf_of_mem_hand {s : GameState} {p : Nat} {c : Card}
    (hp : p < s.players.length) (hc : c ∈ (s.players.getD p default).hand) :
    c ∈ cardsOf s := by
  have hpl : s.players.getD p default ∈ s.players := by
    rw [List.getD_eq_getElem _ _ hp]
    exact List.getElem_mem hp
  have hhands : c ∈ handsCards s.players :=
    mem_sumBy hpl (by exact Multiset.mem_coe.mpr hc)
  unfold cardsOf
  rw [Multiset.mem_add, Multiset.mem_add, Multiset.mem_add]
  exact Or.inl (Or.inl (Or.inr hhands))

theorem card_eq_of_id {s : GameState} (hcons : cardsOf s = (makeDeck : Multiset Card))
    {c e : Card} (hcs : c ∈ cardsOf s) (hes : e ∈ cardsOf s)
    (hid : cardId e = cardId c) : e = c := by
  rw [hcons, Multiset.mem_coe] at hcs hes
  exact makeDeck_id_inj e hes c hcs hid

theorem pairCards_undefended (c : Card) (p : Nat) :
    pairCards { attack := c, defend := none, by_ := p } = [c] := rfl

theorem tableCards_append_single (tb : List TPair) (t : TPair) :
    tableCards (tb ++ [t]) = tableCards tb + (pairCards t : Multiset Card) := by
  show sumBy _ (tb ++ [t]) = _
  rw [sumBy_append]
  show _ + (_ + 0) = _
  rw [add_zero]
  rfl

theorem playAttack_Inv {s : GameState} (hI : EngineInv s) (p : Nat) (c : Card)
    (hp : p < s.players.length) (hc : c ∈ (s.players.getD p default).hand) :
    EngineInv (playAttack p c s) := by
  obtain ⟨hcons, hn, hatt, hdef⟩ := hI
  simp only [playAttack]
  by_cases hact : s.attacker ≠ p
  · rw [if_pos hact]
    exact ⟨hcons, hn, hatt, hdef⟩
  · rw [if_neg hact]
    cases hrm : removeFirstById (cardId c) ((s.players.getD p default).hand) with
    | none => exact ⟨hcons, hn, hatt, hdef⟩
    | some er =>
      simp only
      obtain ⟨hid, hmem, hsplit⟩ := removeFirstById_some hrm
      have he : er.1 = c := card_eq_of_id hcons
        (mem_cardsOf_of_mem_hand hp hc) (mem_cardsOf_of_mem_hand hp hmem) hid
      refine ⟨?_, ?_, ?_, ?_⟩
      · show (s.deck : Multiset Card)
            + handsCards (s.players.set p { s.players.getD p default with hand := er.2 })
            + tableCards (s.table ++ [{ attack := c, defend := none, by_ := p }])
            + (s.discards : Multiset Card) = (makeDeck : Multiset Card)
        rw [tableCards_append_single, pairCards_undefended]
        have hset : handsCards (s.players.set p
              { s.players.getD p default with hand := er.2 })
            + ((s.players.getD p default).hand : Multiset Card)
            = handsCards s.players + (er.2 : Multiset Card) :=
          sumBy_set (fun q => (q.hand : Multiset Card)) s.players p hp
            { s.players.getD p default with hand := er.2 }
        rw [he] at hsplit
        rw [hsplit] at hset
        have hhands : handsCards (s.players.set p
              { s.players.getD p default with hand := er.2 })
            + ({c} : Multiset Card) = handsCards s.players := by
          have : handsCards (s.players.set p
                { s.players.getD p default with hand := er.2 })
              + ({c} : Multiset Card) + (er.2 : Multiset Card)
              = handsCards s.players + (er.2 : Multiset Card) := by
            rw [← hset, add_assoc, Multiset.singleton_add]
          exact add_right_cancel this
        calc (s.deck : Multiset Card)
              + handsCards (s.players.set p { s.players.getD p default with hand := er.2 })
              + (tableCards s.table + (([c] : List Card) : Multiset Card))
              + (s.discards : Multiset Card)
            = (s.deck : Multiset Card)
              + (handsCards (s.players.set p
                  { s.players.getD p default with hand := er.2 })
                + ({c} : Multiset Card))
              + tableCards s.table + (s.discards : Multiset Card) := by
              have hcoe : (([c] : List Card) : Multiset Card) = ({c} : Multiset Card) := rfl
              rw [hcoe]
              abel
          _ = (s.deck : Multiset Card) + handsCards s.players + tableCards s.table
              + (s.discards : Multiset Card) := by rw [hhands]
          _ = (makeDeck : Multiset Card) := hcons
      · show 0 < (s.players.set p _).length
        rw [List.length_set]; exact hn
      · show s.attacker < (s.players.set p _).length
        rw [List.length_set]; exact hatt
      · show s.defender < (s.players.set p _).length
        rw [List.length_set]; exact hdef

theorem checkForFinish_attacker (s : GameState) :
    (checkForFinish s).attacker = s.attacker := by
  unfold checkForFinish; split <;> rfl

theorem checkForFinish_defender (s : GameState) :
    (checkForFinish s).defender = s.defender := by
  unfold checkForFinish; split <;> rfl

theorem cardsOf_set_phase (s : GameState) (ph : String) :
    cardsOf { s with phase := ph } = cardsOf s := rfl

theorem addAttack_Inv {s : GameState} (hI : EngineInv s) (p : Nat) (c : Card)
    (hp : p < s.players.length) (hc : c ∈ (s.players.getD p default).hand) :
    EngineInv (addAttack p c s) := by
  obtain ⟨hcons, hn, hatt, hdef⟩ := hI
  simp only [addAttack]
  by_cases hph : s.phase ≠ "defend"
  · rw [if_pos hph]
    exact ⟨hcons, hn, hatt, hdef⟩
  · rw [if_neg hph]
    cases hrm : removeFirstById (cardId c) ((s.players.getD p default).hand) with
    | none => exact ⟨hcons, hn, hatt, hdef⟩
    | some er =>
      simp only
      by_cases hrank : ¬ (c.rank ∈ (s.table.flatMap
          (fun t => t.attack.rank
            :: (match t.defend with | some d => [d.rank] | none => []))).filter
          (fun r => r ≠ ""))
      · rw [if_pos hrank]
        exact ⟨hcons, hn, hatt, hdef⟩
      · rw [if_neg hrank]
        by_cases htab : 8 ≤ s.table.length
        · rw [if_pos htab]
          exact ⟨hcons, hn, hatt, hdef⟩
        · rw [if_neg htab]
          obtain ⟨hid, hmem, hsplit⟩ := removeFirstById_some hrm
          have he : er.1 = c := card_eq_of_id hcons
            (mem_cardsOf_of_mem_hand hp hc) (mem_cardsOf_of_mem_hand hp hmem) hid
          refine ⟨?_, ?_, ?_, ?_⟩
          · show (s.deck : Multiset Card)
                + handsCards (s.players.set p
                  { s.players.getD p default with hand := er.2 })
                + tableCards (s.table ++ [{ attack := c, defend := none, by_ := p }])
                + (s.discards : Multiset Card) = (makeDeck : Multiset Card)
            rw [tableCards_append_single, pairCards_undefended]
            have hset : handsCards (s.players.set p
                  { s.players.getD p default with hand := er.2 })
                + ((s.players.getD p default).hand : Multiset Card)
                = handsCards s.players + (er.2 : Multiset Card) :=
              sumBy_set (fun q => (q.hand : Multiset Card)) s.players p hp
                { s.players.getD p default with hand := er.2 }
            rw [he] at hsplit
            rw [hsplit] at hset
            have hhands : handsCards (s.players.set p
                  { s.players.getD p default with hand := er.2 })
                + ({c} : Multiset Card) = handsCards s.players := by
              have hstep : handsCards (s.players.set p
                    { s.players.getD p default with hand := er.2 })
                  + ({c} : Multiset Card) + (er.2 : Multiset Card)
                  = handsCards s.players + (er.2 : Multiset Card) := by
                rw [← hset, add_assoc, Multiset.singleton_add]
              exact add_right_cancel hstep
            calc (s.deck : Multiset Card)
                  + handsCards (s.players.set p
                    { s.players.getD p default with hand := er.2 })
                  + (tableCards s.table + (([c] : List Card) : Multiset Card))
                  + (s.discards : Multiset Card)
                = (s.deck : Multiset Card)
                  + (handsCards (s.players.set p
                      { s.players.getD p default with hand := er.2 })
                    + ({c} : Multiset Card))
                  + tableCards s.table + (s.discards : Multiset Card) := by
                  have hcoe : (([c] : List Card) : Multiset Card)
                      = ({c} : Multiset Card) := rfl
                  rw [hcoe]
                  abel
              _ = (s.deck : Multiset Card) + handsCards s.players + tableCards s.table
                  + (s.discards : Multiset Card) := by rw [hhands]
              _ = (makeDeck : Multiset Card) := hcons
          · show 0 < (s.players.set p _).length
            rw [List.length_set]; exact hn
          · show s.attacker < (s.players.set p _).length
            rw [List.length_set]; exact hatt
          · show s.defender < (s.players.set p _).length
            rw [List.length_set]; exact hdef

theorem defenderTakes_Inv {s : GameState} (hI : EngineInv s) :
    EngineInv (defenderTakes s) := by
  obtain ⟨hcons, hn, hatt, hdef⟩ := hI
  simp only [defenderTakes]
  set toTake := s.table.flatMap pairCards with htake
  set pl := s.players.getD s.defender default with hpl
  set players' := s.players.set s.defender { pl with hand := pl.hand ++ toTake }
    with hplayers'
  set s1 : GameState := { s with
    players := players', table := [],
    defender := (s.attacker + 1) % s.players.length } with hs1
  have hlen1 : s1.players.length = s.players.length := by
    rw [hs1]
    show players'.length = _
    rw [hplayers', List.length_set]
  have hn1 : 0 < s1.players.length := by rw [hlen1]; exact hn
  have hcons1 : cardsOf s1 = (makeDeck : Multiset Card) := by
    have hset : handsCards players' + (pl.hand : Multiset Card)
        = handsCards s.players + ((pl.hand ++ toTake : List Card) : Multiset Card) :=
      sumBy_set (fun q => (q.hand : Multiset Card)) s.players s.defender hdef
        { pl with hand := pl.hand ++ toTake }
    have hhands : handsCards players'
        = handsCards s.players + (toTake : Multiset Card) := by
      have hstep : handsCards players' + (pl.hand : Multiset Card)
          = handsCards s.players + (toTake : Multiset Card)
            + (pl.hand : Multiset Card) := by
        rw [hset, ← Multiset.coe_add]
        abel
      exact add_right_cancel hstep
    show (s.deck : Multiset Card) + handsCards players' + tableCards []
        + (s.discards : Multiset Card) = (makeDeck : Multiset Card)
    rw [hhands, htake, tableCards_coe_flatMap]
    have hz : tableCards [] = 0 := rfl
    rw [hz, ← hcons]
    show _ = (s.deck : Multiset Card) + handsCards s.players + tableCards s.table
        + (s.discards : Multiset Card)
    abel
  refine ⟨?_, ?_, ?_, ?_⟩
  · rw [checkForFinish_cardsOf, cardsOf_set_phase, drawToFill_conserve _ hn1, hcons1]
  · rw [checkForFinish_players]
    show 0 < ({ drawToFill s1 with phase := "attack" }).players.length
    have : ({ drawToFill s1 with phase := "attack" }).players = (drawToFill s1).players :=
      rfl
    rw [this, drawToFill_players_length]
    exact hn1
  · rw [checkForFinish_attacker]
    show ({ drawToFill s1 with phase := "attack" }).attacker
      < (checkForFinish { drawToFill s1 with phase := "attack" }).players.length
    rw [checkForFinish_players]
    show (drawToFill s1).attacker < ({ drawToFill s1 with phase := "attack" }).players.length
    have hpl1 : ({ drawToFill s1 with phase := "attack" }).players
        = (drawToFill s1).players := rfl
    rw [hpl1, drawToFill_attacker, drawToFill_players_length, hlen1]
    show s.attacker < s.players.length
    exact hatt
  · rw [checkForFinish_defender]
    show ({ drawToFill s1 with phase := "attack" }).defender
      < (checkForFinish { drawToFill s1 with phase := "attack" }).players.length
    rw [checkForFinish_players]
    have hpl1 : ({ drawToFill s1 with phase := "attack" }).players
        = (drawToFill s1).players := rfl
    have hdf1 : ({ drawToFill s1 with phase := "attack" }).defender
        = (drawToFill s1).defender := rfl
    rw [hpl1, hdf1, drawToFill_defender, drawToFill_players_length, hlen1]
    show (s.attacker + 1) % s.players.length < s.players.length
    exact Nat.mod_lt _ hn

instance : Inhabited Card := ⟨⟨"", ""⟩⟩

instance : Inhabited TPair := ⟨⟨⟨"", ""⟩, none, 0⟩⟩

theorem playDefend_Inv {s : GameState} (hI : EngineInv s) (p i : Nat) (c : Card)
    (hp : p < s.players.length) (hc : c ∈ (s.players.getD p default).hand) :
    EngineInv (playDefend p i c s) := by
  obtain ⟨hcons, hn, hatt, hdef⟩ := hI
  simp only [playDefend]
  by_cases hact : s.defender ≠ p
  · rw [if_pos hact]
    exact ⟨hcons, hn, hatt, hdef⟩
  · rw [if_neg hact]
    cases hpair : s.table.get? i with
    | none => exact ⟨hcons, hn, hatt, hdef⟩
    | some pair =>
      simp only
      by_cases hdnone : pair.defend ≠ none
      · rw [if_pos hdnone]
        exact ⟨hcons, hn, hatt, hdef⟩
      · rw [if_neg hdnone]
        cases hrm : removeFirstById (cardId c) ((s.players.getD p default).hand) with
        | none => exact ⟨hcons, hn, hatt, hdef⟩
        | some er =>
          simp only
          by_cases hbeat : ¬ canBeat pair.attack (some c) s.trump
          · rw [if_pos hbeat]
            exact ⟨hcons, hn, hatt, hdef⟩
          · rw [if_neg hbeat]
            have hd_eq : pair.defend = none := not_not.mp hdnone
            have hi : i < s.table.length := (List.get?_eq_some.mp hpair).1
            have hgetD : s.table.getD i default = pair := by
              rw [List.getD_eq_getElem _ _ hi]
              exact (List.get?_eq_some.mp hpair).2
            obtain ⟨hid, hmem, hsplit⟩ := removeFirstById_some hrm
            have he : er.1 = c := card_eq_of_id hcons
              (mem_cardsOf_of_mem_hand hp hc) (mem_cardsOf_of_mem_hand hp hmem) hid
            have htabset : tableCards (s.table.set i { pair with defend := some c })
                + (pairCards (s.table.getD i default) : Multiset Card)
                = tableCards s.table
                  + (pairCards { pair with defend := some c } : Multiset Card) :=
              sumBy_set (fun t => (pairCards t : Multiset Card)) s.table i hi
                { pair with defend := some c }
            rw [hgetD] at htabset
            have hpc1 : pairCards pair = [pair.attack] := by
              simp [pairCards, hd_eq]
            have hpc2 : pairCards { pair with defend := some c } = [pair.attack, c] := rfl
            have htab : tableCards (s.table.set i { pair with defend := some c })
                = tableCards s.table + ({c} : Multiset Card) := by
              rw [hpc1, hpc2] at htabset
              have h1 : (([pair.attack] : List Card) : Multiset Card)
                  = ({pair.attack} : Multiset Card) := rfl
              have h2 : (([pair.attack, c] : List Card) : Multiset Card)
                  = pair.attack ::ₘ ({c} : Multiset Card) := rfl
              rw [h1, h2] at htabset
              apply add_right_cancel (b := ({pair.attack} : Multiset Card))
              rw [htabset, ← Multiset.singleton_add]
              abel
            have hset : handsCards (s.players.set p
                  { s.players.getD p default with hand := er.2 })
                + ((s.players.getD p default).hand : Multiset Card)
                = handsCards s.players + (er.2 : Multiset Card) :=
              sumBy_set (fun q => (q.hand : Multiset Card)) s.players p hp
                { s.players.getD p default with hand := er.2 }
            rw [he] at hsplit
            rw [hsplit] at hset
            have hhands : handsCards (s.players.set p
                  { s.players.getD p default with hand := er.2 })
                + ({c} : Multiset Card) = handsCards s.players := by
              have hstep : handsCards (s.players.set p
                    { s.players.getD p default with hand := er.2 })
                  + ({c} : Multiset Card) + (er.2 : Multiset Card)
                  = handsCards s.players + (er.2 : Multiset Card) := by
                rw [← hset, add_assoc, Multiset.singleton_add]
              exact add_right_cancel hstep
            by_cases hall : (s.table.set i { pair with defend := some c }).all
                (fun t => decide (t.defend ≠ none)) = true
            · rw [if_pos hall]
              set players' := s.players.set p
                { s.players.getD p default with hand := er.2 } with hplayers'
              set table' := s.table.set i { pair with defend := some c } with htable'
              set s2 : GameState := { s with
                players := players', table := [],
                discards := s.discards ++ table'.flatMap pairCards,
                attacker := s.defender,
                defender := (s.defender + 1) % s.players.length,
                phase := "cleanup" } with hs2
              have hlen2 : s2.players.length = s.players.length := by
                rw [hs2]
                show players'.length = _
                rw [hplayers', List.length_set]
              have hn2 : 0 < s2.players.length := by rw [hlen2]; exact hn
              have hcons2 : cardsOf s2 = (makeDeck : Multiset Card) := by
                show (s.deck : Multiset Card) + handsCards players' + tableCards []
                    + ((s.discards ++ table'.flatMap pairCards : List Card) :
                      Multiset Card) = (makeDeck : Multiset Card)
                rw [← Multiset.coe_add, tableCards_coe_flatMap, htable', htab]
                have hz : tableCards ([] : List TPair) = 0 := rfl
                rw [hz, ← hcons]
                show _ = (s.deck : Multiset Card) + handsCards s.players
                    + tableCards s.table + (s.discards : Multiset Card)
                rw [← hhands, hplayers']
                abel
              refine ⟨?_, ?_, ?_, ?_⟩
              · rw [checkForFinish_cardsOf, cardsOf_set_phase,
                  drawToFill_conserve _ hn2, hcons2]
              · rw [checkForFinish_players]
                have hq : ({ drawToFill s2 with phase := "attack" }).players
                    = (drawToFill s2).players := rfl
                rw [hq, drawToFill_players_length]
                exact hn2
              · rw [checkForFinish_attacker, checkForFinish_players]
                have hq : ({ drawToFill s2 with phase := "attack" }).players
                    = (drawToFill s2).players := rfl
                have hq2 : ({ drawToFill s2 with phase := "attack" }).attacker
                    = (drawToFill s2).attacker := rfl
                rw [hq, hq2, drawToFill_attacker, drawToFill_players_length, hlen2]
                show s.defender < s.players.length
                exact hdef
              · rw [checkForFinish_defender, checkForFinish_players]
                have hq : ({ drawToFill s2 with phase := "attack" }).players
                    = (drawToFill s2).players := rfl
                have hq2 : ({ drawToFill s2 with phase := "attack" }).defender
                    = (drawToFill s2).defender := rfl
                rw [hq, hq2, drawToFill_defender, drawToFill_players_length, hlen2]
                show (s.defender + 1) % s.players.length < s.players.length
                exact Nat.mod_lt _ hn
            · rw [if_neg hall]
              refine ⟨?_, ?_, ?_, ?_⟩
              · show (s.deck : Multiset Card)
                    + handsCards (s.players.set p
                      { s.players.getD p default with hand := er.2 })
                    + tableCards (s.table.set i { pair with defend := some c })
                    + (s.discards : Multiset Card) = (makeDeck : Multiset Card)
                rw [htab, ← hcons]
                show _ = (s.deck : Multiset Card) + handsCards s.players
                    + tableCards s.table + (s.discards : Multiset Card)
                rw [← hhands]
                abel
              · show 0 < (s.players.set p _).length
                rw [List.length_set]; exact hn
              · show s.attacker < (s.players.set p _).length
                rw [List.length_set]; exact hatt
              · show s.defender < (s.players.set p _).length
                rw [List.length_set]; exact hdef

theorem makeDeck_length : makeDeck.length = 36 := by decide

theorem newGame_Inv (shuffled : List Card) (n : Nat) (hperm : shuffled.Perm makeDeck)
    (h2 : 2 ≤ n) (h4 : n ≤ 4) : EngineInv (newGame shuffled n) := by
  have hlen : 36 ≤ shuffled.length := by
    rw [hperm.length_eq, makeDeck_length]
  refine ⟨?_, ?_, ?_, ?_⟩
  · rw [newGame_conserve shuffled n hlen h4, Multiset.coe_eq_coe]
    exact hperm
  · rw [newGame_players_length]
    omega
  · have := newGame_attacker_lt shuffled n (by omega)
    rw [newGame_players_length]
    exact this
  · have := newGame_defender_lt shuffled n (by omega)
    rw [newGame_players_length]
    exact this

theorem reach_Inv {s : GameState} (h : Reach s) : EngineInv s := by
  induction h with
  | init shuffled n hperm h2 h4 => exact newGame_Inv shuffled n hperm h2 h4
  | attack s p c hs hp hc ih => exact playAttack_Inv ih p c hp hc
  | defend s p i c hs hp hc ih => exact playDefend_Inv ih p i c hp hc
  | add s p c hs hp hc ih => exact addAttack_Inv ih p c hp hc
  | take s hs ih => exact defenderTakes_Inv ih

/-- C1: in every state reachable from `newGame` by engine actions, the
multiset of cards in the deck, all hands, all table pairs (attack and defend
cards) and all cards discarded at earlier round resolutions is exactly the
36-card full deck built by `makeDeck` - no card duplicated, none missing. -/
theorem reach_conservation (s : GameState) (h : Reach s) :
    cardsOf s = (makeDeck : Multiset Card) ∧
      (makeDeck : Multiset Card).Nodup ∧ Multiset.card (makeDeck : Multiset Card) = 36 :=
  ⟨(reach_Inv h).1, Multiset.coe_nodup.mpr makeDeck_nodup, by decide⟩

/-- Witness for C1 at a concrete game: the identity permutation, 2 players. -/
theorem reach_conservation_witness :
    cardsOf (newGame makeDeck 2) = (makeDeck : Multiset Card) ∧
      (makeDeck : Multiset Card).Nodup
      ∧ Multiset.card (makeDeck : Multiset Card) = 36 :=
  reach_conservation (newGame makeDeck 2)
    (Reach.init makeDeck 2 (List.Perm.refl _) (by decide) (by decide))

/-! ### Termination (claim C3) -/

/-- A concrete mid-round position: two players, empty deck, one undefended
pair, the defender holding a card that beats it.  Used to witness the
resolution half of the termination theorem. -/
def resolveSample : GameState :=
  { players := [{ id := 0, name := "P1", hand := [{ suit := "♣", rank := "6" }] },
                { id := 1, name := "P2", hand := [{ suit := "♦", rank := "9" }] }],
    deck := [], trump := "♥",
    table := [{ attack := { suit := "♦", rank := "7" }, defend := none, by_ := 0 }],
    attacker := 0, defender := 1, phase := "defend", maxAdds := 0, discards := [] }

theorem set_phase_attack_ne_finished (t : GameState) :
    ({ t with phase := "attack" } : GameState).phase ≠ "finished" := by
  intro h
  have h' : ("attack" : String) = "finished" := h
  exact absurd h' (by decide)

/-- C3: after a take and after a round resolution, the phase is "finished"
exactly when the deck is empty and some hand is empty; the phase never
becomes "finished" with a non-empty deck. -/
theorem finish_exactness :
    (∀ s : GameState, ((defenderTakes s).phase = "finished" ↔
      (defenderTakes s).deck = [] ∧ ∃ p ∈ (defenderTakes s).players, p.hand = []))
    ∧ (∀ (s : GameState) (p i : Nat) (c : Card), s.phase = "defend" →
      (playDefend p i c s).phase ≠ "defend" →
      ((playDefend p i c s).phase = "finished" ↔
        (playDefend p i c s).deck = [] ∧
          ∃ pl ∈ (playDefend p i c s).players, pl.hand = [])) := by
  constructor
  · intro s
    simp only [defenderTakes]
    exact checkForFinish_phase_iff _ (set_phase_attack_ne_finished _)
  · intro s p i c hph hneq
    simp only [playDefend] at hneq ⊢
    by_cases hact : s.defender ≠ p
    · rw [if_pos hact] at hneq ⊢
      exact absurd hph hneq
    · rw [if_neg hact] at hneq ⊢
      cases hpair : s.table.get? i with
      | none =>
        rw [hpair] at hneq
        exact absurd hph hneq
      | some pair =>
        rw [hpair] at hneq
        simp only at hneq ⊢
        by_cases hdnone : pair.defend ≠ none
        · rw [if_pos hdnone] at hneq ⊢
          exact absurd hph hneq
        · rw [if_neg hdnone] at hneq ⊢
          cases hrm : removeFirstById (cardId c) ((s.players.getD p default).hand) with
          | none =>
            rw [hrm] at hneq
            exact absurd hph hneq
          | some er =>
            rw [hrm] at hneq
            simp only at hneq ⊢
            by_cases hbeat : ¬ canBeat pair.attack (some c) s.trump
            · rw [if_pos hbeat] at hneq ⊢
              exact absurd hph hneq
            · rw [if_neg hbeat] at hneq ⊢
              by_cases hall : (s.table.set i { pair with defend := some c }).all
                  (fun t => decide (t.defend ≠ none)) = true
              · rw [if_pos hall] at hneq ⊢
                exact checkForFinish_phase_iff _ (set_phase_attack_ne_finished _)
              · rw [if_neg hall] at hneq ⊢
                exact absurd hph hneq

/-- Witness for C3: a concrete resolving defend (both sides of the iff hold:
the defender empties their hand with the deck already empty, and the phase
is indeed "finished"). -/
theorem finish_exactness_witness :
    (playDefend 1 0 { suit := "♦", rank := "9" } resolveSample).phase = "finished" ↔
      (playDefend 1 0 { suit := "♦", rank := "9" } resolveSample).deck = [] ∧
        ∃ pl ∈ (playDefend 1 0 { suit := "♦", rank := "9" } resolveSample).players,
          pl.hand = [] :=
  finish_exactness.2 resolveSample 1 0 { suit := "♦", rank := "9" } rfl (by decide)

/-! ### Phase and actor guards (claims C4, C5, C7) -/

/-- A mid-defend position: the attacker still holds a card while one pair is
already on the table and the phase is "defend". -/
def midDefendSample : GameState :=
  { players := [{ id := 0, name := "P1", hand := [{ suit := "♣", rank := "6" }] },
                { id := 1, name := "P2", hand := [{ suit := "♦", rank := "9" }] }],
    deck := [{ suit := "♠", rank := "7" }], trump := "♥",
    table := [{ attack := { suit := "♦", rank := "7" }, defend := none, by_ := 0 }],
    attacker := 0, defender := 1, phase := "defend", maxAdds := 7, discards := [] }

/-- An attack-phase position with a (stale) pair still on the table, to probe
`defenderTakes` outside the "defend" phase. -/
def attackPhaseSample : GameState :=
  { players := [{ id := 0, name := "P1", hand := [{ suit := "♣", rank := "6" }] },
                { id := 1, name := "P2", hand := [{ suit := "♦", rank := "9" }] }],
    deck := [{ suit := "♠", rank := "7" }], trump := "♥",
    table := [{ attack := { suit := "♦", rank := "7" }, defend := none, by_ := 0 }],
    attacker := 0, defender := 1, phase := "attack", maxAdds := 0, discards := [] }

/-- C4 (code bug): neither `playAttack` nor `defenderTakes` checks the phase.
An attack by the attacker during the "defend" phase is accepted (a second
pair is pushed and the card leaves the hand), and a take during the "attack"
phase clears the table into the defender's hand, reassigns the defender slot
and runs the refill - neither is a no-op as the spec requires. -/
theorem phase_guard_missing :
    midDefendSample.phase = "defend" ∧
    (playAttack 0 { suit := "♣", rank := "6" } midDefendSample).table.length = 2 ∧
    playAttack 0 { suit := "♣", rank := "6" } midDefendSample ≠ midDefendSample ∧
    attackPhaseSample.phase = "attack" ∧
    (defenderTakes attackPhaseSample).table = [] ∧
    ((defenderTakes attackPhaseSample).players.getD 1 default).hand.length = 2 ∧
    defenderTakes attackPhaseSample ≠ attackPhaseSample := by
  refine ⟨rfl, by decide, by decide, rfl, by decide, by decide, by decide⟩

/-- A defend-phase position where the defender holds a single card while one
pair is already undefended: any accepted add-attack pushes the number of
undefended pairs above the defender's hand size. -/
def overloadSample : GameState :=
  { players := [{ id := 0, name := "P1", hand := [{ suit := "♣", rank := "7" }] },
                { id := 1, name := "P2", hand := [{ suit := "♠", rank := "6" }] }],
    deck := [{ suit := "♠", rank := "7" }], trump := "♥",
    table := [{ attack := { suit := "♦", rank := "7" }, defend := none, by_ := 0 }],
    attacker := 0, defender := 1, phase := "defend", maxAdds := 1, discards := [] }

/-- C5 (code bug): the defender-hand-size guard of `addAttack` is an empty
`if` body in the source ("rough guard: keep it simple"), so the add-attack
is accepted even though it leaves 2 undefended pairs against a 1-card hand. -/
theorem addAttack_overload_accepted :
    ((addAttack 0 { suit := "♣", rank := "7" } overloadSample).table.filter
      (fun t => t.defend = none)).length = 2 ∧
    ((overloadSample.players.getD overloadSample.defender default).hand.length = 1) ∧
    addAttack 0 { suit := "♣", rank := "7" } overloadSample ≠ overloadSample := by
  refine ⟨by decide, rfl, by decide⟩

/-- A defend-phase position where the defender (not the attacker) holds a
card whose rank is already on the table. -/
def wrongActorSample : GameState :=
  { players := [{ id := 0, name := "P1", hand := [{ suit := "♣", rank := "6" }] },
                { id := 1, name := "P2",
                  hand := [{ suit := "♣", rank := "7" }, { suit := "♦", rank := "9" }] }],
    deck := [{ suit := "♠", rank := "7" }], trump := "♥",
    table := [{ attack := { suit := "♦", rank := "7" }, defend := none, by_ := 0 }],
    attacker := 0, defender := 1, phase := "defend", maxAdds := 1, discards := [] }

/-- C7 (code bug): `addAttack` never compares `byPlayerIndex` with the
attacker, despite the "allow only attacker" comment: an add-attack by the
defender (player 1, while the attacker is player 0) is accepted - the card
leaves player 1's hand and a pair recorded as played by player 1 appears. -/
theorem addAttack_wrong_actor_accepted :
    wrongActorSample.attacker = 0 ∧
    (addAttack 1 { suit := "♣", rank := "7" } wrongActorSample).table.length = 2 ∧
    ((addAttack 1 { suit := "♣", rank := "7" } wrongActorSample).table.getD 1
      default).by_ = 1 ∧
    ((addAttack 1 { suit := "♣", rank := "7" } wrongActorSample).players.getD 1
      default).hand.length = 1 ∧
    addAttack 1 { suit := "♣", rank := "7" } wrongActorSample ≠ wrongActorSample := by
  refine ⟨rfl, by decide, by decide, by decide, by decide⟩

/-! ### Trump card reinsertion (claim C6) -/

/-- Counterexample to C6 as stated: with the identity permutation and two
players, the trump card turned up is K♦, but the next card a draw would
yield (the head of the draw-ordered deck) is A♦.  `deck.unshift` puts the
trump card at the end opposite to `deck.pop`. -/
theorem trump_not_next_draw :
    newGameTrumpCard makeDeck 2 = some { suit := "♦", rank := "K" } ∧
    (newGame makeDeck 2).deck.head? = some { suit := "♦", rank := "A" } ∧
    (newGame makeDeck 2).deck.head? ≠ newGameTrumpCard makeDeck 2 := by
  refine ⟨by decide, by decide, by decide⟩

/-- C6 as amended: after its suit is recorded, the trump card is reinserted
at the end of the deck opposite to draws - it is the last card a draw from
the deck would yield, not the next - and it does remain in the deck (hence
drawable later in the game). -/
theorem trump_reinserted_at_bottom (shuffled : List Card) (n : Nat)
    (hlen : 36 ≤ shuffled.length) (hn : n ≤ 4) :
    ∃ tc, newGameTrumpCard shuffled n = some tc ∧
      (newGame shuffled n).trump = tc.suit ∧
      (newGame shuffled n).deck.getLast? = some tc ∧
      tc ∈ (newGame shuffled n).deck := by
  have hne := newGame_deal_deck_ne_nil shuffled n hlen hn
  simp only [newGame, newGameTrumpCard]
  split
  · next heq => exact absurd heq hne
  · next tc rest heq =>
    refine ⟨tc, ?_, rfl, ?_, ?_⟩
    · rw [heq]
      rfl
    · show (rest ++ [tc]).getLast? = some tc
      exact List.getLast?_concat rest
    · show tc ∈ rest ++ [tc]
      exact List.mem_append.mpr (Or.inr (List.mem_singleton.mpr rfl))

/-- Witness for the amended C6 at the identity permutation with 2 players. -/
theorem trump_reinserted_at_bottom_witness :
    ∃ tc, newGameTrumpCard makeDeck 2 = some tc ∧
      (newGame makeDeck 2).trump = tc.suit ∧
      (newGame makeDeck 2).deck.getLast? = some tc ∧
      tc ∈ (newGame makeDeck 2).deck :=
  trump_reinserted_at_bottom makeDeck 2 (by decide) (by decide)

/-! ### Refill bounds (claim C8) -/

/-- Counterexample to C8 as stated: in a reachable game (identity
permutation, 2 players; the first attacker plays 7♣ and the defender takes),
the refill that `defenderTakes` runs leaves the defender with 9 cards while
the deck still holds cards.  Taking pushes a hand above 8 and the refill
loop never trims it. -/
theorem refill_hand_above_cap :
    Reach (defenderTakes (playAttack 1 { suit := "♣", rank := "7" }
      (newGame makeDeck 2))) ∧
    ((defenderTakes (playAttack 1 { suit := "♣", rank := "7" }
      (newGame makeDeck 2))).players.getD 0 default).hand.length = 9 ∧
    (defenderTakes (playAttack 1 { suit := "♣", rank := "7" }
      (newGame makeDeck 2))).deck ≠ [] := by
  refine ⟨Reach.take _ (Reach.attack _ 1 { suit := "♣", rank := "7" }
    (Reach.init makeDeck 2 (List.Perm.refl _) (by decide) (by decide))
    (by decide) (by decide)), by decide, by decide⟩

/-- C8 as amended: the refill visits each player, drawing until the hand has
8 cards or the deck is empty; hence a hand that enters the refill with at
most 8 cards never exceeds 8 afterwards, no hand loses cards, and a hand
left below 8 means the deck was exhausted. -/
theorem drawToFill_hand_bounds (s : GameState) (i : Nat) (hi : i < s.players.length) :
    ((s.players.getD i default).hand.length ≤ 8 →
      ((drawToFill s).players.getD i default).hand.length ≤ 8) ∧
    (s.players.getD i default).hand.length
      ≤ ((drawToFill s).players.getD i default).hand.length ∧
    (((drawToFill s).players.getD i default).hand.length < 8 →
      (drawToFill s).deck = []) := by
  refine ⟨?_, ?_, ?_⟩
  · intro hle
    have h := drawLoop_hand_le (List.range s.players.length) s.attacker
      s.players s.deck i hi
    simp only [drawToFill]
    omega
  · exact drawLoop_hand_ge (List.range s.players.length) s.attacker
      s.players s.deck i hi
  · intro hlt
    obtain ⟨o, ho, heq⟩ := exists_offset s.attacker i s.players.length hi
    have h := drawLoop_visited (List.range s.players.length) s.attacker
      s.players s.deck i hi ⟨o, List.mem_range.mpr ho, heq⟩
    simp only [drawToFill] at hlt ⊢
    rcases h with h8 | hnil
    · omega
    · exact hnil

/-- Witness for the amended C8 at a concrete freshly dealt game. -/
theorem drawToFill_hand_bounds_witness :
    (((newGame makeDeck 2).players.getD 0 default).hand.length ≤ 8 →
      ((drawToFill (newGame makeDeck 2)).players.getD 0 default).hand.length ≤ 8) ∧
    ((newGame makeDeck 2).players.getD 0 default).hand.length
      ≤ ((drawToFill (newGame makeDeck 2)).players.getD 0 default).hand.length ∧
    (((drawToFill (newGame makeDeck 2)).players.getD 0 default).hand.length < 8 →
      (drawToFill (newGame makeDeck 2)).deck = []) :=
  drawToFill_hand_bounds (newGame makeDeck 2) 0 (by decide)

/-! ### First attacker selection (claim C9) -/

theorem minTrump_mem {t : String} : ∀ {hand : List Card} {m : Card},
    minTrump t hand = some m → m ∈ hand ∧ m.suit = t := by
  intro hand
  induction hand with
  | nil => intro m h; simp [minTrump] at h
  | cons a as ih =>
    intro m h
    simp only [minTrump] at h
    by_cases has : a.suit = t
    · rw [if_pos has] at h
      cases hmt : minTrump t as with
      | none =>
        simp only [hmt, Option.some.injEq] at h
        subst h
        exact ⟨List.mem_cons_self _ _, has⟩
      | some m' =>
        simp only [hmt] at h
        by_cases hlt : rankValue m'.rank < rankValue a.rank
        · rw [if_pos hlt] at h
          injection h with h
          subst h
          obtain ⟨hm, hs⟩ := ih hmt
          exact ⟨List.mem_cons_of_mem _ hm, hs⟩
        · rw [if_neg hlt] at h
          injection h with h
          subst h
          exact ⟨List.mem_cons_self _ _, has⟩
    · rw [if_neg has] at h
      obtain ⟨hm, hs⟩ := ih h
      exact ⟨List.mem_cons_of_mem _ hm, hs⟩

theorem minTrump_min {t : String} : ∀ {hand : List Card} {c : Card},
    c ∈ hand → c.suit = t →
    ∃ m, minTrump t hand = some m ∧ rankValue m.rank ≤ rankValue c.rank := by
  intro hand
  induction hand with
  | nil => intro c hc; simp at hc
  | cons a as ih =>
    intro c hc hcs
    simp only [minTrump]
    rcases List.mem_cons.mp hc with rfl | hmem
    · rw [if_pos hcs]
      cases hmt : minTrump t as with
      | none => exact ⟨c, by simp [hmt], le_refl _⟩
      | some m' =>
        by_cases hlt : rankValue m'.rank < rankValue c.rank
        · exact ⟨m', by simp [hmt, hlt], le_of_lt hlt⟩
        · exact ⟨c, by simp [hmt, hlt], le_refl _⟩
    · obtain ⟨m', hm', hle⟩ := ih hmem hcs
      by_cases has : a.suit = t
      · rw [if_pos has]
        by_cases hlt : rankValue m'.rank < rankValue a.rank
        · exact ⟨m', by simp [hm', hlt], hle⟩
        · exact ⟨a, by simp [hm', hlt], le_trans (le_of_not_lt hlt) hle⟩
      · rw [if_neg has]
        exact ⟨m', hm', hle⟩

theorem minTrump_none {t : String} : ∀ {hand : List Card},
    (∀ c ∈ hand, c.suit ≠ t) → minTrump t hand = none := by
  intro hand
  induction hand with
  | nil => intro _; rfl
  | cons a as ih =>
    intro h
    simp only [minTrump]
    rw [if_neg (h a (List.mem_cons_self _ _))]
    exact ih (fun c hc => h c (List.mem_cons_of_mem _ hc))

theorem bestLoop_keeps (t : String) (pi : Nat) (b : Card) :
    ∀ (L : List (Nat × Player)),
    (∀ qp ∈ L, ∀ d ∈ (qp : Nat × Player).2.hand, d.suit = t →
      rankValue b.rank ≤ rankValue d.rank) →
    bestLoop t (some (pi, b)) L = some (pi, b) := by
  intro L
  induction L with
  | nil => intro _; rfl
  | cons qp L ih =>
    intro h
    rcases qp with ⟨qj, q⟩
    simp only [bestLoop]
    cases hmt : minTrump t q.hand with
    | none =>
      simp only [hmt]
      exact ih (fun r hr => h r (List.mem_cons_of_mem _ hr))
    | some m =>
      simp only [hmt]
      obtain ⟨hmem, hsuit⟩ := minTrump_mem hmt
      have hble : rankValue b.rank ≤ rankValue m.rank :=
        h (qj, q) (List.mem_cons_self _ _) m hmem hsuit
      show bestLoop t
        (if rankValue m.rank < rankValue b.rank then some (qj, m) else some (pi, b))
        L = some (pi, b)
      rw [if_neg (not_lt.mpr hble)]
      exact ih (fun r hr => h r (List.mem_cons_of_mem _ hr))

theorem bestLoop_no_trump (t : String) : ∀ (L : List (Nat × Player))
    (acc : Option (Nat × Card)),
    (∀ qp ∈ L, minTrump t (qp : Nat × Player).2.hand = none) →
    bestLoop t acc L = acc := by
  intro L
  induction L with
  | nil => intro acc _; rfl
  | cons qp L ih =>
    intro acc h
    rcases qp with ⟨qj, q⟩
    simp only [bestLoop, h (qj, q) (List.mem_cons_self _ _)]
    exact ih acc (fun r hr => h r (List.mem_cons_of_mem _ hr))

theorem enumFrom_entry : ∀ (ps : List Player) (k j : Nat) (q : Player),
    (j, q) ∈ List.enumFrom k ps →
    ∃ idx, idx < ps.length ∧ j = k + idx ∧ ps.getD idx default = q := by
  intro ps
  induction ps with
  | nil => intro k j q h; simp [List.enumFrom] at h
  | cons p ps ih =>
    intro k j q hmem
    rw [show List.enumFrom k (p :: ps) = (k, p) :: List.enumFrom (k + 1) ps from rfl]
      at hmem
    rcases List.mem_cons.mp hmem with heq | htail
    · simp only [Prod.mk.injEq] at heq
      obtain ⟨rfl, rfl⟩ := heq
      exact ⟨0, by simp, by omega, rfl⟩
    · obtain ⟨idx, hidx, hj, hq⟩ := ih (k + 1) j q htail
      refine ⟨idx + 1, by simpa using Nat.succ_lt_succ hidx, by omega, hq⟩

theorem bestLoop_locates (t : String) (c : Card) :
    ∀ (ps : List Player) (k : Nat) (acc : Option (Nat × Card)) (pi : Nat),
      pi < ps.length →
      c ∈ (ps.getD pi default).hand → c.suit = t →
      (∀ qj, qj < ps.length → qj ≠ pi → ∀ d ∈ (ps.getD qj default).hand,
        d.suit = t → rankValue c.rank < rankValue d.rank) →
      (acc = none ∨ ∃ j b, acc = some (j, b) ∧ rankValue c.rank < rankValue b.rank) →
      ∃ m, bestLoop t acc (List.enumFrom k ps) = some (k + pi, m) ∧
        rankValue m.rank ≤ rankValue c.rank := by
  intro ps
  induction ps with
  | nil =>
    intro k acc pi hpi
    exact absurd hpi (by simp)
  | cons p ps ih =>
    intro k acc pi hpi hc hsuit hothers hacc
    cases pi with
    | zero =>
      have hc0 : c ∈ p.hand := hc
      obtain ⟨m, hmt, hmle⟩ := minTrump_min hc0 hsuit
      have hrest : ∀ qp ∈ List.enumFrom (k + 1) ps,
          ∀ d ∈ (qp : Nat × Player).2.hand, d.suit = t →
          rankValue m.rank ≤ rankValue d.rank := by
        intro qp hqp d hd hds
        rcases qp with ⟨j, q⟩
        obtain ⟨idx, hidx, hj, hq⟩ := enumFrom_entry ps (k + 1) j q hqp
        have hdq : d ∈ ((p :: ps).getD (idx + 1) default).hand := by
          show d ∈ (ps.getD idx default).hand
          rw [hq]
          exact hd
        have hlt := hothers (idx + 1) (by simpa using Nat.succ_lt_succ hidx)
          (Nat.succ_ne_zero idx) d hdq hds
        exact le_trans hmle (le_of_lt hlt)
      show ∃ m', bestLoop t acc ((k, p) :: List.enumFrom (k + 1) ps)
          = some (k + 0, m') ∧ rankValue m'.rank ≤ rankValue c.rank
      simp only [bestLoop, hmt]
      rcases hacc with rfl | ⟨j, b, rfl, hjb⟩
      · show ∃ m', bestLoop t (some (k, m)) (List.enumFrom (k + 1) ps)
            = some (k + 0, m') ∧ rankValue m'.rank ≤ rankValue c.rank
        rw [bestLoop_keeps t k m (List.enumFrom (k + 1) ps) hrest]
        exact ⟨m, rfl, hmle⟩
      · have hlt : rankValue m.rank < rankValue b.rank := lt_of_le_of_lt hmle hjb
        show ∃ m', bestLoop t
            (if rankValue m.rank < rankValue b.rank then some (k, m) else some (j, b))
            (List.enumFrom (k + 1) ps)
            = some (k + 0, m') ∧ rankValue m'.rank ≤ rankValue c.rank
        rw [if_pos hlt, bestLoop_keeps t k m (List.enumFrom (k + 1) ps) hrest]
        exact ⟨m, rfl, hmle⟩
    | succ pi' =>
      have hpi' : pi' < ps.length := by
        simpa using Nat.lt_of_succ_lt_succ (by simpa using hpi)
      have hc' : c ∈ (ps.getD pi' default).hand := hc
      have hothers' : ∀ qj, qj < ps.length → qj ≠ pi' →
          ∀ d ∈ (ps.getD qj default).hand, d.suit = t →
          rankValue c.rank < rankValue d.rank := by
        intro qj hqj hne d hd hds
        have hq1 : qj + 1 < (p :: ps).length := by simpa using Nat.succ_lt_succ hqj
        have hne1 : qj + 1 ≠ pi' + 1 := fun h => hne (Nat.succ_injective h)
        exact hothers (qj + 1) hq1 hne1 d hd hds
      have hkgoal : k + 1 + pi' = k + (pi' + 1) := by omega
      show ∃ m, bestLoop t acc ((k, p) :: List.enumFrom (k + 1) ps)
          = some (k + (pi' + 1), m) ∧ rankValue m.rank ≤ rankValue c.rank
      simp only [bestLoop]
      cases hmt : minTrump t p.hand with
      | none =>
        simp only [hmt]
        obtain ⟨m, hm, hle⟩ := ih (k + 1) acc pi' hpi' hc' hsuit hothers' hacc
        rw [hkgoal] at hm
        exact ⟨m, hm, hle⟩
      | some m0 =>
        simp only [hmt]
        obtain ⟨hm0mem, hm0suit⟩ := minTrump_mem hmt
        have hm0d : m0 ∈ ((p :: ps).getD 0 default).hand := hm0mem
        have hc_lt_m0 : rankValue c.rank < rankValue m0.rank :=
          hothers 0 (by simp) (Nat.succ_ne_zero pi').symm m0 hm0d hm0suit
        rcases hacc with rfl | ⟨j, b, rfl, hjb⟩
        · obtain ⟨m, hm, hle⟩ := ih (k + 1) (some (k, m0)) pi' hpi' hc' hsuit hothers'
            (Or.inr ⟨k, m0, rfl, hc_lt_m0⟩)
          rw [hkgoal] at hm
          exact ⟨m, hm, hle⟩
        · by_cases hlt : rankValue m0.rank < rankValue b.rank
          · obtain ⟨m, hm, hle⟩ := ih (k + 1) (some (k, m0)) pi' hpi' hc' hsuit hothers'
              (Or.inr ⟨k, m0, rfl, hc_lt_m0⟩)
            rw [hkgoal] at hm
            refine ⟨m, ?_, hle⟩
            show bestLoop t
              (if rankValue m0.rank < rankValue b.rank then some (k, m0) else some (j, b))
              (List.enumFrom (k + 1) ps) = some (k + (pi' + 1), m)
            rw [if_pos hlt]
            exact hm
          · obtain ⟨m, hm, hle⟩ := ih (k + 1) (some (j, b)) pi' hpi' hc' hsuit hothers'
              (Or.inr ⟨j, b, rfl, hjb⟩)
            rw [hkgoal] at hm
            refine ⟨m, ?_, hle⟩
            show bestLoop t
              (if rankValue m0.rank < rankValue b.rank then some (k, m0) else some (j, b))
              (List.enumFrom (k + 1) ps) = some (k + (pi' + 1), m)
            rw [if_neg hlt]
            exact hm

/-- C9: for a fixed deal, `findFirstAttacker` returns the index of the player
holding the strictly lowest-rank trump card (first conjunct), and returns
player 0 when nobody holds a trump (second conjunct).  Being a function of
the deal, the computation is deterministic. -/
theorem findFirstAttacker_spec :
    (∀ (ps : List Player) (t : String) (pi : Nat) (c : Card),
      pi < ps.length → c ∈ (ps.getD pi default).hand → c.suit = t →
      (∀ qj, qj < ps.length → qj ≠ pi → ∀ d ∈ (ps.getD qj default).hand,
        d.suit = t → rankValue c.rank < rankValue d.rank) →
      findFirstAttacker ps t = pi) ∧
    (∀ (ps : List Player) (t : String),
      (∀ p ∈ ps, ∀ c ∈ p.hand, c.suit ≠ t) → findFirstAttacker ps t = 0) := by
  constructor
  · intro ps t pi c hpi hc hsuit hothers
    obtain ⟨m, hm, -⟩ :=
      bestLoop_locates t c ps 0 none pi hpi hc hsuit hothers (Or.inl rfl)
    unfold findFirstAttacker
    rw [List.enum_eq_enumFrom, hm]
    show 0 + pi = pi
    omega
  · intro ps t hno
    unfold findFirstAttacker
    rw [List.enum_eq_enumFrom, bestLoop_no_trump t (List.enumFrom 0 ps) none ?_]
    intro qp hqp
    rcases qp with ⟨j, q⟩
    obtain ⟨idx, hidx, -, hq⟩ := enumFrom_entry ps 0 j q hqp
    have hqmem : q ∈ ps := by
      rw [List.getD_eq_getElem _ _ hidx] at hq
      rw [← hq]
      exact List.getElem_mem hidx
    exact minTrump_none (fun c hcq => hno q hqmem c hcq)

/-- A two-player deal where player 1 holds the lowest heart. -/
def lowTrumpPlayers : List Player :=
  [{ id := 0, name := "P1", hand := [{ suit := "♥", rank := "9" }] },
   { id := 1, name := "P2", hand := [{ suit := "♥", rank := "8" }] }]

/-- Witness for C9: player 1 holds the lowest trump (8♥ against 9♥). -/
theorem findFirstAttacker_spec_witness : findFirstAttacker lowTrumpPlayers "♥" = 1 :=
  findFirstAttacker_spec.1 lowTrumpPlayers "♥" 1 { suit := "♥", rank := "8" }
    (by decide) (by decide) rfl (by decide)

/-! ### maxAdds is write-only (claim C10) -/

/-- Forget the `maxAdds` field (normalise it to 0). -/
def eraseMaxAdds (s : GameState) : GameState := { s with maxAdds := 0 }

theorem eraseMaxAdds_set (s : GameState) (m : Int) :
    eraseMaxAdds { s with maxAdds := m } = eraseMaxAdds s := rfl

theorem drawToFill_maxAdds (s : GameState) (m : Int) :
    drawToFill { s with maxAdds := m } = { drawToFill s with maxAdds := m } := rfl

theorem checkForFinish_maxAdds (s : GameState) (m : Int) :
    checkForFinish { s with maxAdds := m } = { checkForFinish s with maxAdds := m } := by
  simp only [checkForFinish]
  by_cases hc :
      0 < (s.players.filter (fun p => p.hand.length == 0 && s.deck.length == 0)).length
  · rw [if_pos hc, if_pos hc]
  · rw [if_neg hc, if_neg hc]

theorem erase_checkDraw (s : GameState) (m : Int) :
    eraseMaxAdds (checkForFinish
      { drawToFill { s with maxAdds := m } with phase := "attack" })
    = eraseMaxAdds (checkForFinish { drawToFill s with phase := "attack" }) := by
  rw [drawToFill_maxAdds]
  have h1 : ({ { drawToFill s with maxAdds := m } with phase := "attack" } : GameState)
      = { { drawToFill s with phase := "attack" } with maxAdds := m } := rfl
  rw [h1, checkForFinish_maxAdds]
  rfl

theorem eq_set_maxAdds_of_erase_eq {x y : GameState}
    (h : eraseMaxAdds x = eraseMaxAdds y) : x = { y with maxAdds := x.maxAdds } := by
  cases x
  cases y
  simp only [eraseMaxAdds] at h
  injection h with e1 e2 e3 e4 e5 e6 e7 e8 e9
  subst e1; subst e2; subst e3; subst e4; subst e5; subst e6; subst e7; subst e9
  rfl

theorem erase_checkDraw_of_erase_eq {x y : GameState}
    (h : eraseMaxAdds x = eraseMaxAdds y) :
    eraseMaxAdds (checkForFinish { drawToFill x with phase := "attack" })
      = eraseMaxAdds (checkForFinish { drawToFill y with phase := "attack" }) := by
  rw [eq_set_maxAdds_of_erase_eq h]
  exact erase_checkDraw y x.maxAdds

theorem playAttack_erase (p : Nat) (c : Card) (s : GameState) (m : Int) :
    eraseMaxAdds (playAttack p c { s with maxAdds := m })
      = eraseMaxAdds (playAttack p c s) := by
  simp only [playAttack]
  by_cases hact : s.attacker ≠ p
  · rw [if_pos hact, if_pos hact]
    rfl
  · rw [if_neg hact, if_neg hact]
    cases hrm : removeFirstById (cardId c) ((s.players.getD p default).hand) with
    | none =>
      simp only [hrm]
      rfl
    | some er =>
      simp only [hrm]

theorem addAttack_erase (p : Nat) (c : Card) (s : GameState) (m : Int) :
    eraseMaxAdds (addAttack p c { s with maxAdds := m })
      = eraseMaxAdds (addAttack p c s) := by
  simp only [addAttack]
  by_cases hph : s.phase ≠ "defend"
  · rw [if_pos hph, if_pos hph]
    rfl
  · rw [if_neg hph, if_neg hph]
    cases hrm : removeFirstById (cardId c) ((s.players.getD p default).hand) with
    | none =>
      simp only [hrm]
      rfl
    | some er =>
      simp only [hrm]
      by_cases hrank : ¬ (c.rank ∈ (s.table.flatMap
          (fun t => t.attack.rank
            :: (match t.defend with | some d => [d.rank] | none => []))).filter
          (fun r => r ≠ ""))
      · rw [if_pos hrank, if_pos hrank]
        rfl
      · rw [if_neg hrank, if_neg hrank]
        by_cases htab : 8 ≤ s.table.length
        · rw [if_pos htab, if_pos htab]
          rfl
        · rw [if_neg htab, if_neg htab]
          rfl

theorem defenderTakes_erase (s : GameState) (m : Int) :
    eraseMaxAdds (defenderTakes { s with maxAdds := m })
      = eraseMaxAdds (defenderTakes s) := by
  simp only [defenderTakes]
  apply erase_checkDraw_of_erase_eq
  rfl

theorem playDefend_erase (p i : Nat) (c : Card) (s : GameState) (m : Int) :
    eraseMaxAdds (playDefend p i c { s with maxAdds := m })
      = eraseMaxAdds (playDefend p i c s) := by
  simp only [playDefend]
  by_cases hact : s.defender ≠ p
  · rw [if_pos hact, if_pos hact]
    rfl
  · rw [if_neg hact, if_neg hact]
    cases hpair : s.table.get? i with
    | none =>
      simp only [hpair]
      rfl
    | some pair =>
      simp only [hpair]
      by_cases hdnone : pair.defend ≠ none
      · rw [if_pos hdnone, if_pos hdnone]
        rfl
      · rw [if_neg hdnone, if_neg hdnone]
        cases hrm : removeFirstById (cardId c) ((s.players.getD p default).hand) with
        | none =>
          simp only [hrm]
          rfl
        | some er =>
          simp only [hrm]
          by_cases hbeat : ¬ canBeat pair.attack (some c) s.trump
          · rw [if_pos hbeat, if_pos hbeat]
            rfl
          · rw [if_neg hbeat, if_neg hbeat]
            by_cases hall : (s.table.set i { pair with defend := some c }).all
                (fun t => decide (t.defend ≠ none)) = true
            · rw [if_pos hall, if_pos hall]
              apply erase_checkDraw_of_erase_eq
              rfl
            · rw [if_neg hall, if_neg hall]
              rfl

/-- C10: `maxAdds` is write-only.  Two states that agree on everything except
`maxAdds` produce, for every action, results that again agree on everything
except `maxAdds`; in particular no acceptance decision consults `maxAdds`. -/
theorem maxAdds_writeonly (s₁ s₂ : GameState)
    (h : eraseMaxAdds s₁ = eraseMaxAdds s₂) (p i : Nat) (c : Card) :
    eraseMaxAdds (playAttack p c s₁) = eraseMaxAdds (playAttack p c s₂) ∧
    eraseMaxAdds (playDefend p i c s₁) = eraseMaxAdds (playDefend p i c s₂) ∧
    eraseMaxAdds (addAttack p c s₁) = eraseMaxAdds (addAttack p c s₂) ∧
    eraseMaxAdds (defenderTakes s₁) = eraseMaxAdds (defenderTakes s₂) := by
  have hs : s₁ = { s₂ with maxAdds := s₁.maxAdds } :=
    eq_set_maxAdds_of_erase_eq h
  rw [hs]
  exact ⟨playAttack_erase p c s₂ s₁.maxAdds, playDefend_erase p i c s₂ s₁.maxAdds,
    addAttack_erase p c s₂ s₁.maxAdds, defenderTakes_erase s₂ s₁.maxAdds⟩

/-- Witness for C10 at two concrete states differing only in `maxAdds`. -/
theorem maxAdds_writeonly_witness :
    eraseMaxAdds (playAttack 1 { suit := "♣", rank := "7" } (newGame makeDeck 2))
      = eraseMaxAdds (playAttack 1 { suit := "♣", rank := "7" }
        { newGame makeDeck 2 with maxAdds := 5 }) ∧
    eraseMaxAdds (playDefend 1 0 { suit := "♣", rank := "7" } (newGame makeDeck 2))
      = eraseMaxAdds (playDefend 1 0 { suit := "♣", rank := "7" }
        { newGame makeDeck 2 with maxAdds := 5 }) ∧
    eraseMaxAdds (addAttack 1 { suit := "♣", rank := "7" } (newGame makeDeck 2))
      = eraseMaxAdds (addAttack 1 { suit := "♣", rank := "7" }
        { newGame makeDeck 2 with maxAdds := 5 }) ∧
    eraseMaxAdds (defenderTakes (newGame makeDeck 2))
      = eraseMaxAdds (defenderTakes { newGame makeDeck 2 with maxAdds := 5 }) :=
  maxAdds_writeonly (newGame makeDeck 2) { newGame makeDeck 2 with maxAdds := 5 }
    (by decide) 1 0 { suit := "♣", rank := "7" }
